/-
  Verification of the aggregation pipeline of work_log_view (src/aggregator.ts).

  The pipeline is embedded shallowly:
  * instants are `Int` milliseconds since the epoch (the value of
    Date.prototype.getTime), gaps in seconds are exact rationals
    (millisecond difference divided by 1000);
  * strings are Lean `String`s; the line/field splitting of the parser is
    performed on the underlying character lists, mirroring
    String.prototype.split with the separators used by the source
    (the regular expression matching an optional carriage return followed
    by a newline, and a literal comma);
  * the per-title accumulator object of aggregateToBlocks is a plain
    ECMAScript object: its own properties are an association list updated
    in place, a read falls through to the inherited Object.prototype
    members (so titles such as toString read a truthy function and the +
    operator concatenates strings), an assignment to the key __proto__ is
    discarded by the inherited setter, and Object.entries / Object.values
    enumerate own keys with canonical array indices first in ascending
    numeric order followed by the remaining keys in insertion order; the
    aggregator is embedded twice, once over this full semantics
    (aggregateToBlocksJs) and once under the own-property restriction
    (aggregateToBlocks), which agrees with it on every aspect that the
    restricted theorems mention;
  * the Map accumulators of groupBlocksByWeek preserve pure insertion
    order, and Array.prototype.sort is modelled by a stable insertion sort,
    as the ECMAScript specification requires sort to be stable;
  * the host date parser consumed by parseCsv (new Date(string) followed by
    the isNaN check) is an explicit function parameter of type
    String → Option Int, and Number(string) one of type String → Option ℚ,
    so every theorem about the parser holds for an arbitrary host parser;
  * the local-time calendar used by the grouper (setHours(0,0,0,0),
    getDay, setDate) is modelled with an explicit timezone offset
    parameter tz : Int in milliseconds, local time being UTC plus tz.
-/
import Mathlib

namespace WorkLog

/-! ### Character-level splitting utilities (String.prototype.split) -/

/-- Split a character list at every occurrence of the separator character,
as String.prototype.split does with a single-character separator: the
result is always nonempty and empty segments are kept. -/
def splitOnChar (sep : Char) : List Char → List (List Char)
  | [] => [[]]
  | c :: cs =>
    match splitOnChar sep cs with
    | [] => if c = sep then [[], []] else [[c]]
    | h :: t => if c = sep then [] :: h :: t else (c :: h) :: t

/-- Whitespace as trimmed by String.prototype.trim (restricted to the
ASCII whitespace characters that can appear in a CSV log line). -/
def isWsChar (c : Char) : Bool :=
  c = ' ' || c = '\t' || c = '\n' || c = '\r'

/-- Remove leading and trailing whitespace, as String.prototype.trim. -/
def trimChars (l : List Char) : List Char :=
  ((l.dropWhile isWsChar).reverse.dropWhile isWsChar).reverse

/-- Split a text into lines, as text.split with the regular expression
matching an optional carriage return followed by a newline: split at every
newline character and remove one carriage return at the end of each
resulting segment. -/
def splitJsLines (text : List Char) : List (List Char) :=
  (splitOnChar '\n' text).map
    (fun l => if l.getLast? = some '\r' then l.dropLast else l)

/-! ### Data model (interfaces CsvEntry, AggregatedActivity, AggregatedBlock) -/

/-- interface CsvEntry.  The timestamp is the getTime value of the parsed
Date; value1/value2 are `none` when the field is absent or not a number. -/
structure CsvEntry where
  timestamp : Int
  appName : String
  title : String
  value1 : Option ℚ
  value2 : Option ℚ
deriving DecidableEq, Inhabited, Repr

/-- interface AggregatedActivity. -/
structure AggregatedActivity where
  title : String
  durationSec : ℚ
deriving DecidableEq, Inhabited, Repr

/-- interface AggregatedBlock. -/
structure AggregatedBlock where
  «from» : Int
  «to» : Int
  totalDurationSec : ℚ
  activities : List AggregatedActivity
deriving DecidableEq, Inhabited, Repr

/-! ### Keyed accumulators (plain-object and Map accumulation) -/

/-- One accumulation step into a keyed map held as an association list:
if the key is present its value is transformed in place (keeping its
position), otherwise a new entry is appended with the transform applied
to the given default read value.  This is exactly
`map.set(k, f(map.get(k) ?? dflt))` on a JS Map (the dayMap and weekMap
accumulators), and it is also the own-property part of a plain-object
read-modify-write: an existing own property keeps its first-insertion
position and a new own property is appended.  The plain-object
activityMap additionally involves the prototype chain; that full
semantics is objUpd below, which handles the inherited `__proto__`
setter and the inherited member reads and delegates the own-property
mutation to this function with the inherited value as the default. -/
def updAssoc {κ σ : Type} [DecidableEq κ] (key : κ) (f : σ → σ) (dflt : σ)
    (m : List (κ × σ)) : List (κ × σ) :=
  if key ∈ m.map Prod.fst then
    m.map (fun p => if p.1 = key then (p.1, f p.2) else p)
  else m ++ [(key, f dflt)]

/-- Fold a list into a keyed accumulator, starting from the empty map:
the accumulation pattern of activityMap, dayMap and weekMap. -/
def groupFold {β κ σ : Type} [DecidableEq κ] (key : β → κ) (dflt : κ → σ)
    (step : σ → β → σ) (l : List β) : List (κ × σ) :=
  l.foldl (fun acc b => updAssoc (key b) (fun s => step s b) (dflt (key b)) acc) []

/-- The keys of a list in order of first occurrence (the insertion order
of a JS Map fed those keys). -/
def firstKeys {κ : Type} [DecidableEq κ] : List κ → List κ
  | [] => []
  | k :: ks => k :: firstKeys (ks.filter (fun x => x ≠ k))
termination_by l => l.length
decreasing_by
  simpa [Nat.lt_succ_iff] using List.length_filter_le _ ks

/-! ### ECMAScript own-property ordering for plain objects -/

/-- Numeric value of a digit string. -/
def natOfDigits (l : List Char) : ℕ :=
  l.foldl (fun n c => n * 10 + (c.toNat - 48)) 0

/-- Whether a string is a canonical ECMAScript array index: the decimal
representation, without leading zeros, of an integer below 2^32 - 1.
Such own-property keys of a plain object are enumerated first, in
ascending numeric order, before all other string keys. -/
def isArrayIndexKey (s : String) : Bool :=
  !s.data.isEmpty
    && s.data.all (fun c => '0' ≤ c && c ≤ '9')
    && (s.data.headD '0' ≠ '0' || s.data.length = 1)
    && natOfDigits s.data < 4294967295

/-- Ordering of two object entries whose keys are array indices:
ascending numeric value (generic in the stored value type). -/
def numPairLe {σ : Type} (p q : String × σ) : Prop :=
  natOfDigits p.1.data ≤ natOfDigits q.1.data

instance {σ : Type} : DecidableRel (@numPairLe σ) := fun _p _q => by
  unfold numPairLe; infer_instance

instance {σ : Type} : IsTotal (String × σ) numPairLe :=
  ⟨fun _p _q => Nat.le_total _ _⟩

instance {σ : Type} : IsTrans (String × σ) numPairLe :=
  ⟨fun _ _ _ h h' => Nat.le_trans h h'⟩

/-- Object.entries of a plain object whose own properties are held as an
insertion-ordered association list: array-index keys first in ascending
numeric order, then the remaining keys in insertion order. -/
def jsEntries {σ : Type} (m : List (String × σ)) : List (String × σ) :=
  List.insertionSort numPairLe (m.filter (fun p => isArrayIndexKey p.1))
    ++ m.filter (fun p => !isArrayIndexKey p.1)

/-- Object.values of a plain object: the values in Object.entries order. -/
def jsValues {σ : Type} (m : List (String × σ)) : List σ :=
  (jsEntries m).map Prod.snd

/-! ### ECMAScript values and the prototype chain of a plain object

The source accumulates durations with
`activityMap[current.title] = (activityMap[current.title] || 0) + gapSec`
on a plain object literal, whose prototype is Object.prototype.  A title
equal to an inherited member name therefore reads a truthy inherited
function, so the `|| 0` fallback does not apply and the `+` operator
string-concatenates; and an assignment to the key `__proto__` invokes
the inherited accessor's setter, which silently discards a value that is
neither an object nor null.  The stored values are consequently numbers
or strings, modelled by JsVal. -/

/-- A value stored in the plain-object accumulator: the source stores
numbers, but a title colliding with an Object.prototype member makes it
store a string. -/
inductive JsVal where
  | num (q : ℚ)
  | str (s : String)
deriving DecidableEq, Repr, Inhabited

/-- ToBoolean of a stored value, as tested by the || operator: a number
is truthy unless it is zero, a string unless it is empty. -/
def jsTruthy : JsVal → Bool
  | .num q => decide (q ≠ 0)
  | .str s => decide (s ≠ "")

/-- ToString of a number, as used by the + operator when the other
operand is a string.  The exact ECMAScript digit formatting is never
inspected by any theorem; any concrete representation serves. -/
def numToStr (q : ℚ) : String :=
  toString q.num ++ "/" ++ toString q.den

/-- The + operator on stored values: numeric addition on two numbers,
string concatenation as soon as one operand is a string. -/
def jsAdd : JsVal → JsVal → JsVal
  | .num a, .num b => .num (a + b)
  | .num a, .str t => .str (numToStr a ++ t)
  | .str s, .num b => .str (s ++ numToStr b)
  | .str s, .str t => .str (s ++ t)

/-- The numeric content of a stored value (zero for a string); used only
to state numeric conclusions about values already known to be numbers. -/
def jsNumOf : JsVal → ℚ
  | .num q => q
  | .str _ => 0

/-- The own property names of Object.prototype (including the Annex B
legacy accessors): a read of such a key on an otherwise empty plain
object returns an inherited value instead of undefined. -/
def protoKeys : List String :=
  ["constructor", "hasOwnProperty", "isPrototypeOf", "propertyIsEnumerable",
   "toLocaleString", "toString", "valueOf", "__defineGetter__",
   "__defineSetter__", "__lookupGetter__", "__lookupSetter__", "__proto__"]

/-- The string conversion of the inherited Object.prototype function
member named k, as produced by the + operator (the function source text
is implementation-defined; no theorem inspects it). -/
def protoMemberStr (k : String) : String :=
  "function " ++ k ++ "() " ++ "..."

/-- The value read for a key that is not an own property of the
accumulator: the inherited Object.prototype member for a colliding key
(a truthy function, represented by its string conversion since it can
only flow into string concatenation), and the absent read (undefined,
turned into 0 by the || fallback) for every other key, represented as
the number 0.  The key __proto__ never reaches this default: its
assignment is discarded before any own property is created. -/
def objDefault (k : String) : JsVal :=
  if k ∈ protoKeys then .str (protoMemberStr k) else .num 0

/-- One accumulation step of the source on the plain-object activityMap,
with full ECMAScript semantics:
`activityMap[k] = (activityMap[k] || 0) + g` reads the own property or,
failing that, the inherited Object.prototype member, replaces a falsy
read by 0, adds the gap with the + operator (string concatenation when
the read produced an inherited function), and writes the result —
except that an assignment to the key __proto__ invokes the inherited
accessor setter, which discards the non-object value, leaving the
object unchanged. -/
def objUpd (k : String) (g : ℚ) (m : List (String × JsVal)) : List (String × JsVal) :=
  if k = "__proto__" then m
  else updAssoc k (fun v => jsAdd (if jsTruthy v then v else .num 0) (.num g))
    (objDefault k) m

/-! ### Record Parser (parseCsv) -/

/-- Ordering used by the parser sort comparator
(a, b) => a.timestamp.getTime() - b.timestamp.getTime(). -/
def tsLe (a b : CsvEntry) : Prop :=
  a.timestamp ≤ b.timestamp

instance : DecidableRel tsLe := fun _a _b => by
  unfold tsLe; infer_instance

instance : IsTotal CsvEntry tsLe :=
  ⟨fun _a _b => Int.le_total _ _⟩

instance : IsTrans CsvEntry tsLe :=
  ⟨fun _ _ _ h h' => Int.le_trans h h'⟩

/-- The body of the parse loop for one line: split on commas, drop the
line if it has fewer than 3 fields or its first field does not parse as
a valid timestamp, otherwise build the record.  `pd` is the host date
parser (new Date followed by the isNaN check), `pn` the host number
parser (Number followed by treating NaN as absent). -/
def parseLine (pd : String → Option Int) (pn : String → Option ℚ)
    (line : List Char) : Option CsvEntry :=
  let parts := splitOnChar ',' line
  if parts.length < 3 then none
  else
    match pd (trimChars (parts.getD 0 [])).asString with
    | none => none
    | some ts =>
      some { timestamp := ts
             appName := (trimChars (parts.getD 1 [])).asString
             title := (trimChars (parts.getD 2 [])).asString
             value1 := if 3 < parts.length then pn (trimChars (parts.getD 3 [])).asString else none
             value2 := if 4 < parts.length then pn (trimChars (parts.getD 4 [])).asString else none }

/-- The nonblank lines of the input text. -/
def csvLines (csvText : String) : List (List Char) :=
  (splitJsLines csvText.data).filter (fun l => trimChars l ≠ [])

/-- The valid records of the input, in input line order (the entries
array before the final sort). -/
def parsedEntries (pd : String → Option Int) (pn : String → Option ℚ)
    (csvText : String) : List CsvEntry :=
  (csvLines csvText).filterMap (parseLine pd pn)

/-- function parseCsv: parse every line, skipping invalid ones, and sort
the result by timestamp (Array.prototype.sort is stable). -/
def parseCsv (pd : String → Option Int) (pn : String → Option ℚ)
    (csvText : String) : List CsvEntry :=
  List.insertionSort tsLe (parsedEntries pd pn csvText)

/-! ### Block Aggregator (aggregateToBlocks) -/

/-- The gap between two consecutive records in seconds:
(next.timestamp.getTime() - current.timestamp.getTime()) / 1000. -/
def gapSec (current next : CsvEntry) : ℚ :=
  ((next.timestamp - current.timestamp : Int) : ℚ) / 1000

/-- The mutable state of the aggregation loop, under the own-property
view of the accumulator (numeric values, no prototype chain).  The model
of the full ECMAScript plain-object semantics is JsAggState below; the
theorems proved over this restricted state concern only aspects that do
not depend on the accumulator contents (block boundaries, splitting,
flushing) or concern inputs on which the two models agree. -/
structure AggState where
  blocks : List AggregatedBlock
  blockStart : Int
  blockEnd : Int
  activityMap : List (String × ℚ)
deriving Repr

/-- Close the currently open block from the loop state: totalDurationSec
is the sum of Object.values(activityMap) and activities is
Object.entries(activityMap) mapped to records. -/
def closeBlock (st : AggState) : AggregatedBlock :=
  { «from» := st.blockStart
    «to» := st.blockEnd
    totalDurationSec := (jsValues st.activityMap).sum
    activities := (jsEntries st.activityMap).map (fun p => ⟨p.1, p.2⟩) }

/-- One merge step of the loop,
activityMap[current.title] = (activityMap[current.title] || 0) + gapSec,
under the own-property view: exact whenever the title is not an
Object.prototype member name (the read of an absent own key then yields
undefined, the || fallback gives 0, and a stored number other than 0
is truthy while replacing a stored 0 by 0 is the identity).  The full
plain-object semantics, divergent exactly on the colliding titles, is
mapUpdJs below. -/
def mapUpd (m : List (String × ℚ)) (p : CsvEntry × CsvEntry) : List (String × ℚ) :=
  updAssoc p.1.title (fun s => s + gapSec p.1 p.2) 0 m

/-- The loop of aggregateToBlocks over consecutive pairs (current, next),
carried as the current record plus the remaining records. -/
def aggLoop (thr : ℚ) : CsvEntry → List CsvEntry → AggState → AggState
  | _, [], st => st
  | current, next :: rest, st =>
    if gapSec current next ≤ thr then
      aggLoop thr next rest
        { st with blockEnd := next.timestamp
                  activityMap := mapUpd st.activityMap (current, next) }
    else
      aggLoop thr next rest
        { blocks := st.blocks ++ [closeBlock st]
          blockStart := next.timestamp
          blockEnd := next.timestamp
          activityMap := [] }

/-- function aggregateToBlocks: scan consecutive pairs, then always emit
the final open block (own-property view of the accumulator; the fully
faithful model is aggregateToBlocksJs below). -/
def aggregateToBlocks (entries : List CsvEntry) (thr : ℚ) : List AggregatedBlock :=
  match entries with
  | [] => []
  | e :: rest =>
    let st := aggLoop thr e rest
      { blocks := [], blockStart := e.timestamp, blockEnd := e.timestamp, activityMap := [] }
    st.blocks ++ [closeBlock st]

/-! ### The chunk decomposition view of the scan

The imperative scan of aggregateToBlocks is proved equal to: split the
record sequence into maximal runs of consecutive records whose gaps are
at most the threshold, and close one block per run. -/

/-- Consecutive pairs (current, next) of a record sequence. -/
def pairsOf (l : List CsvEntry) : List (CsvEntry × CsvEntry) :=
  l.zip l.tail

/-- Whether a record sequence is sorted non-decreasing by timestamp. -/
def sortedByTs : List CsvEntry → Bool
  | [] => true
  | [_] => true
  | a :: b :: l => decide (a.timestamp ≤ b.timestamp) && sortedByTs (b :: l)

/-- Split a record sequence into maximal runs of consecutive records
separated by gaps of at most thr seconds; a gap strictly above thr starts
a new run. -/
def chunkByGap (thr : ℚ) : List CsvEntry → List (List CsvEntry)
  | [] => []
  | [c] => [[c]]
  | c :: next :: rest =>
    match chunkByGap thr (next :: rest) with
    | [] => [[c]]
    | ch :: chs =>
      if gapSec c next ≤ thr then (c :: ch) :: chs else [c] :: ch :: chs

/-- The block closed from one run, with the open block's start instant and
per-title accumulator passed in: the activity map accumulates one update
per consecutive pair of the run, from is the passed start and to is the
run's last timestamp. -/
def mergeBlock (s : Int) (m : List (String × ℚ)) : List CsvEntry → AggregatedBlock
  | [] => { «from» := s, «to» := s, totalDurationSec := (jsValues m).sum,
            activities := (jsEntries m).map (fun p => ⟨p.1, p.2⟩) }
  | c :: rest =>
    let m' := (pairsOf (c :: rest)).foldl mapUpd m
    { «from» := s
      «to» := (rest.getLastD c).timestamp
      totalDurationSec := (jsValues m').sum
      activities := (jsEntries m').map (fun p => ⟨p.1, p.2⟩) }

/-- The block closed from one complete run: starts at the run's first
timestamp with an empty accumulator. -/
def blockOfChunk : List CsvEntry → AggregatedBlock
  | [] => { «from» := 0, «to» := 0, totalDurationSec := 0, activities := [] }
  | c :: rest => mergeBlock c.timestamp [] (c :: rest)

/-! ### The aggregator under full plain-object semantics

The same scan, with the accumulator modelled as a real ECMAScript plain
object: stored values are JsVal, an update reads through the prototype
chain and an assignment to __proto__ is discarded by the inherited
setter.  The emitted durations and totals are therefore JsVal too: the
reduce over Object.values starts from the number 0 and applies the +
operator left to right. -/

/-- interface AggregatedActivity as actually produced: the duration is a
number unless the title collided with an Object.prototype member. -/
structure JsActivity where
  title : String
  durationSec : JsVal
deriving DecidableEq, Repr, Inhabited

/-- interface AggregatedBlock as actually produced. -/
structure JsBlock where
  «from» : Int
  «to» : Int
  totalDurationSec : JsVal
  activities : List JsActivity
deriving DecidableEq, Repr, Inhabited

/-- The mutable state of the aggregation loop over the plain-object
accumulator. -/
structure JsAggState where
  blocks : List JsBlock
  blockStart : Int
  blockEnd : Int
  activityMap : List (String × JsVal)
deriving Repr

/-- Close the currently open block: totalDurationSec is
Object.values(activityMap).reduce((sum, d) => sum + d, 0), a left fold
of the + operator from the number 0, and activities is
Object.entries(activityMap) mapped to records. -/
def closeBlockJs (st : JsAggState) : JsBlock :=
  { «from» := st.blockStart
    «to» := st.blockEnd
    totalDurationSec := (jsValues st.activityMap).foldl jsAdd (.num 0)
    activities := (jsEntries st.activityMap).map (fun p => ⟨p.1, p.2⟩) }

/-- One merge step of the loop on the plain object:
activityMap[current.title] = (activityMap[current.title] || 0) + gapSec
with full prototype-chain semantics. -/
def mapUpdJs (m : List (String × JsVal)) (p : CsvEntry × CsvEntry) :
    List (String × JsVal) :=
  objUpd p.1.title (gapSec p.1 p.2) m

/-- The loop of aggregateToBlocks over consecutive pairs, on the
plain-object accumulator. -/
def aggLoopJs (thr : ℚ) : CsvEntry → List CsvEntry → JsAggState → JsAggState
  | _, [], st => st
  | current, next :: rest, st =>
    if gapSec current next ≤ thr then
      aggLoopJs thr next rest
        { st with blockEnd := next.timestamp
                  activityMap := mapUpdJs st.activityMap (current, next) }
    else
      aggLoopJs thr next rest
        { blocks := st.blocks ++ [closeBlockJs st]
          blockStart := next.timestamp
          blockEnd := next.timestamp
          activityMap := [] }

/-- function aggregateToBlocks under full plain-object semantics: scan
consecutive pairs, then always emit the final open block. -/
def aggregateToBlocksJs (entries : List CsvEntry) (thr : ℚ) : List JsBlock :=
  match entries with
  | [] => []
  | e :: rest =>
    let st := aggLoopJs thr e rest
      { blocks := [], blockStart := e.timestamp, blockEnd := e.timestamp, activityMap := [] }
    st.blocks ++ [closeBlockJs st]

/-- The block closed from one run under plain-object semantics, with the
open block's start instant and accumulator passed in. -/
def mergeBlockJs (s : Int) (m : List (String × JsVal)) : List CsvEntry → JsBlock
  | [] => { «from» := s, «to» := s,
            totalDurationSec := (jsValues m).foldl jsAdd (.num 0),
            activities := (jsEntries m).map (fun p => ⟨p.1, p.2⟩) }
  | c :: rest =>
    let m' := (pairsOf (c :: rest)).foldl mapUpdJs m
    { «from» := s
      «to» := (rest.getLastD c).timestamp
      totalDurationSec := (jsValues m').foldl jsAdd (.num 0)
      activities := (jsEntries m').map (fun p => ⟨p.1, p.2⟩) }

/-- The block closed from one complete run under plain-object
semantics. -/
def blockOfChunkJs : List CsvEntry → JsBlock
  | [] => { «from» := 0, «to» := 0, totalDurationSec := .num 0, activities := [] }
  | c :: rest => mergeBlockJs c.timestamp [] (c :: rest)

/-! ### Calendar Grouper (getMonday, groupBlocksByWeek) -/

/-- interface DayData.  The date field holds the getTime value of the
local-midnight Date used as the day key. -/
structure DayData where
  date : Int
  blocks : List AggregatedBlock
  totalDurationSec : ℚ
deriving DecidableEq, Inhabited, Repr

/-- interface WeekData. -/
structure WeekData where
  weekStart : Int
  days : List DayData
  totalDurationSec : ℚ
deriving DecidableEq, Inhabited, Repr

/-- The number of the local calendar day containing an instant, for a
local time equal to UTC plus tz milliseconds (floor division, matching
a local clock for any date). -/
def localDayNum (tz t : Int) : Int :=
  (t + tz) / 86400000

/-- The instant of the local midnight of the day containing t:
new Date(t) followed by setHours(0,0,0,0). -/
def dayMidnight (tz t : Int) : Int :=
  localDayNum tz t * 86400000 - tz

/-- Date.prototype.getDay for the local day containing t: 0 is Sunday
through 6 is Saturday; day 0 of the epoch was a Thursday. -/
def weekdayOf (tz t : Int) : Int :=
  (localDayNum tz t + 4) % 7

/-- function getMonday: move to the Monday of the week containing the
date (Sunday moves six days back) and truncate to local midnight. -/
def getMonday (tz t : Int) : Int :=
  (localDayNum tz t + ((if weekdayOf tz t = 0 then (-6 : Int) else 1) - weekdayOf tz t))
    * 86400000 - tz

/-- The first, day-keying pass of groupBlocksByWeek: group blocks into
DayData by the local-midnight key of their from instant, in a Map keyed
by the day (dayKey strings are in bijection with the midnight instants). -/
def groupBlocksByDay (tz : Int) (blocks : List AggregatedBlock) : List DayData :=
  (groupFold (fun b => dayMidnight tz b.«from»)
    (fun k => ⟨k, [], 0⟩)
    (fun s b => ⟨s.date, s.blocks ++ [b], s.totalDurationSec + b.totalDurationSec⟩)
    blocks).map Prod.snd

/-- Ordering used by the final sort comparator
(a, b) => a.weekStart.getTime() - b.weekStart.getTime(). -/
def weekLe (a b : WeekData) : Prop :=
  a.weekStart ≤ b.weekStart

instance : DecidableRel weekLe := fun _a _b => by
  unfold weekLe; infer_instance

instance : IsTotal WeekData weekLe :=
  ⟨fun _a _b => Int.le_total _ _⟩

instance : IsTrans WeekData weekLe :=
  ⟨fun _ _ _ h h' => Int.le_trans h h'⟩

/-- function groupBlocksByWeek: group blocks by day, group the days by
the Monday of their week, and return the weeks sorted by weekStart. -/
def groupBlocksByWeek (tz : Int) (blocks : List AggregatedBlock) : List WeekData :=
  List.insertionSort weekLe
    ((groupFold (fun d => getMonday tz d.date)
      (fun k => ⟨k, [], 0⟩)
      (fun s d => ⟨s.weekStart, s.days ++ [d], s.totalDurationSec + d.totalDurationSec⟩)
      (groupBlocksByDay tz blocks)).map Prod.snd)

/-! ### Properties of the keyed accumulators -/

theorem firstKeys_nil {κ : Type} [DecidableEq κ] : firstKeys ([] : List κ) = [] := by
  rw [firstKeys]

theorem firstKeys_cons {κ : Type} [DecidableEq κ] (k : κ) (ks : List κ) :
    firstKeys (k :: ks) = k :: firstKeys (ks.filter (fun x => x ≠ k)) := by
  rw [firstKeys]

theorem mem_firstKeys {κ : Type} [DecidableEq κ] {a : κ} :
    ∀ {l : List κ}, a ∈ firstKeys l ↔ a ∈ l
  | [] => by simp [firstKeys]
  | k :: ks => by
    rw [firstKeys]
    by_cases h : a = k
    · subst h; simp
    · simp only [List.mem_cons, h, false_or]
      rw [mem_firstKeys (l := ks.filter (fun x => x ≠ k))]
      simp [h]
termination_by l => l.length
decreasing_by
  simpa [Nat.lt_succ_iff] using List.length_filter_le _ ks

theorem nodup_firstKeys {κ : Type} [DecidableEq κ] :
    ∀ (l : List κ), (firstKeys l).Nodup
  | [] => by simp [firstKeys]
  | k :: ks => by
    rw [firstKeys]
    refine List.nodup_cons.2 ⟨?_, nodup_firstKeys _⟩
    rw [mem_firstKeys]
    simp
termination_by l => l.length
decreasing_by
  simpa [Nat.lt_succ_iff] using List.length_filter_le _ ks

theorem foldl_updAssoc_eq {β κ σ : Type} [DecidableEq κ] (key : β → κ) (dflt : κ → σ)
    (step : σ → β → σ) :
    ∀ (l : List β) (acc : List (κ × σ)),
      l.foldl (fun a b => updAssoc (key b) (fun s => step s b) (dflt (key b)) a) acc =
        acc.map (fun p => (p.1, (l.filter (fun b => key b = p.1)).foldl step p.2))
        ++ (firstKeys ((l.map key).filter (fun k => k ∉ acc.map Prod.fst))).map
            (fun k => (k, (l.filter (fun b => key b = k)).foldl step (dflt k)))
  | [], acc => by simp [firstKeys_nil]
  | b :: l, acc => by
    rw [List.foldl_cons]
    by_cases hk : key b ∈ acc.map Prod.fst
    · have hupd : updAssoc (key b) (fun s => step s b) (dflt (key b)) acc =
          acc.map (fun p => if p.1 = key b then (p.1, step p.2 b) else p) := by
        simp [updAssoc, hk]
      rw [hupd, foldl_updAssoc_eq key dflt step l]
      have hfst : (acc.map (fun p => if p.1 = key b then (p.1, step p.2 b) else p)).map
          Prod.fst = acc.map Prod.fst := by
        rw [List.map_map]
        refine List.map_congr_left (fun p _ => ?_)
        by_cases h : p.1 = key b <;> simp [h]
      rw [hfst, List.map_map]
      congr 1
      · refine List.map_congr_left (fun p _ => ?_)
        by_cases h : p.1 = key b
        · have hg : (if p.1 = key b then (p.1, step p.2 b) else p) = (p.1, step p.2 b) :=
            if_pos h
          simp only [Function.comp_apply, hg]
          rw [List.filter_cons_of_pos (by simp [h]), List.foldl_cons]
        · have hg : (if p.1 = key b then (p.1, step p.2 b) else p) = p := if_neg h
          simp only [Function.comp_apply, hg]
          rw [List.filter_cons_of_neg (by simpa using fun hh => h hh.symm)]
      · have hfil : ((b :: l).map key).filter (fun k => k ∉ acc.map Prod.fst) =
            (l.map key).filter (fun k => k ∉ acc.map Prod.fst) := by
          rw [List.map_cons, List.filter_cons_of_neg (by simpa using hk)]
        rw [hfil]
        refine List.map_congr_left (fun k hkmem => ?_)
        have hkne : k ≠ key b := by
          rw [mem_firstKeys] at hkmem
          rcases List.mem_filter.1 hkmem with ⟨-, hnot⟩
          intro h; subst h
          exact absurd hk (by simpa using hnot)
        rw [List.filter_cons_of_neg (by simpa using fun hh => hkne hh.symm)]
    · have hupd : updAssoc (key b) (fun s => step s b) (dflt (key b)) acc =
          acc ++ [(key b, step (dflt (key b)) b)] := by
        simp [updAssoc, hk]
      rw [hupd, foldl_updAssoc_eq key dflt step l]
      have hfst : ((acc ++ [(key b, step (dflt (key b)) b)]).map Prod.fst) =
          acc.map Prod.fst ++ [key b] := by simp
      rw [hfst]
      have hfil : ((b :: l).map key).filter (fun k => k ∉ acc.map Prod.fst) =
          key b :: (l.map key).filter (fun k => k ∉ acc.map Prod.fst) := by
        rw [List.map_cons, List.filter_cons_of_pos (by simpa using hk)]
      rw [hfil, firstKeys_cons]
      have hff : ((l.map key).filter (fun k => k ∉ acc.map Prod.fst)).filter
            (fun x => x ≠ key b) =
          (l.map key).filter (fun k => k ∉ acc.map Prod.fst ++ [key b]) := by
        rw [List.filter_filter]
        refine List.filter_congr (fun k _ => ?_)
        by_cases h1 : k = key b <;> by_cases h2 : k ∈ acc.map Prod.fst <;>
          simp [h1, h2]
      rw [hff]
      simp only [List.map_append, List.map_cons, List.map_nil]
      have hmapacc : acc.map (fun p =>
            (p.1, ((b :: l).filter (fun c => key c = p.1)).foldl step p.2)) =
          acc.map (fun p => (p.1, (l.filter (fun c => key c = p.1)).foldl step p.2)) := by
        refine List.map_congr_left (fun p hp => ?_)
        have : key b ≠ p.1 := by
          intro h
          exact hk (h ▸ List.mem_map_of_mem Prod.fst hp)
        rw [List.filter_cons_of_neg (by simpa using this)]
      rw [hmapacc]
      have hhead : ((b :: l).filter (fun c => key c = key b)).foldl step
            (dflt (key b)) =
          (l.filter (fun c => key c = key b)).foldl step (step (dflt (key b)) b) := by
        rw [List.filter_cons_of_pos (by simp), List.foldl_cons]
      rw [hhead]
      have htail : (firstKeys ((l.map key).filter
            (fun k => k ∉ acc.map Prod.fst ++ [key b]))).map
            (fun k => (k, ((b :: l).filter (fun c => key c = k)).foldl step (dflt k))) =
          (firstKeys ((l.map key).filter
            (fun k => k ∉ acc.map Prod.fst ++ [key b]))).map
            (fun k => (k, (l.filter (fun c => key c = k)).foldl step (dflt k))) := by
        refine List.map_congr_left (fun k hkmem => ?_)
        have hkne : key b ≠ k := by
          rw [mem_firstKeys] at hkmem
          rcases List.mem_filter.1 hkmem with ⟨-, hnot⟩
          intro h; subst h
          simp at hnot
        rw [List.filter_cons_of_neg (by simpa using hkne)]
      rw [htail]
      simp

/-- The grouping folds of the pipeline, characterised extensionally: the
result has one entry per distinct key in order of first occurrence, whose
value folds the step function over exactly the input items with that key,
in input order, starting from the default for that key. -/
theorem groupFold_eq {β κ σ : Type} [DecidableEq κ] (key : β → κ) (dflt : κ → σ)
    (step : σ → β → σ) (l : List β) :
    groupFold key dflt step l =
      (firstKeys (l.map key)).map
        (fun k => (k, (l.filter (fun b => key b = k)).foldl step (dflt k))) := by
  unfold groupFold
  rw [foldl_updAssoc_eq key dflt step l []]
  simp

/-! ### Summation lemmas -/

theorem foldl_add_eq_sum {β : Type} (g : β → ℚ) :
    ∀ (l : List β) (a : ℚ), l.foldl (fun s b => s + g b) a = a + (l.map g).sum
  | [], a => by simp
  | b :: l, a => by
    rw [List.foldl_cons, foldl_add_eq_sum g l, List.map_cons, List.sum_cons]
    ring

theorem sum_filter_split {β : Type} (p : β → Bool) (g : β → ℚ) :
    ∀ l : List β,
      ((l.filter p).map g).sum + ((l.filter (fun b => !p b)).map g).sum = (l.map g).sum
  | [] => by simp
  | b :: l => by
    by_cases h : p b = true
    · rw [List.filter_cons_of_pos h, List.filter_cons_of_neg (by simp [h])]
      rw [List.map_cons, List.sum_cons, List.map_cons, List.sum_cons]
      rw [add_assoc, sum_filter_split p g l]
    · rw [List.filter_cons_of_neg (by simp [h]),
        List.filter_cons_of_pos (by simp [h])]
      rw [List.map_cons, List.sum_cons, List.map_cons, List.sum_cons]
      rw [← sum_filter_split p g l]
      ring

/-! ### Object entry ordering lemmas -/

/-- Ordering of two array-index key strings by numeric value. -/
def numStrLe (s t : String) : Prop :=
  natOfDigits s.data ≤ natOfDigits t.data

instance : DecidableRel numStrLe := fun _s _t => by
  unfold numStrLe; infer_instance

instance : IsTotal String numStrLe :=
  ⟨fun _s _t => Nat.le_total _ _⟩

instance : IsTrans String numStrLe :=
  ⟨fun _ _ _ h h' => Nat.le_trans h h'⟩

theorem jsEntries_perm {σ : Type} (m : List (String × σ)) : List.Perm (jsEntries m) m := by
  unfold jsEntries
  exact ((List.perm_insertionSort numPairLe _).append_right _).trans
    (List.filter_append_perm _ m)

theorem jsValues_sum (m : List (String × ℚ)) :
    (jsValues m).sum = (m.map Prod.snd).sum :=
  ((jsEntries_perm m).map Prod.snd).sum_eq

theorem jsEntries_fst_nodup {σ : Type} {m : List (String × σ)}
    (h : (m.map Prod.fst).Nodup) : ((jsEntries m).map Prod.fst).Nodup :=
  (((jsEntries_perm m).map Prod.fst).nodup_iff).2 h

/-! ### Stability of insertion sort under filtering -/

theorem filter_orderedInsert_pos {α : Type} (r : α → α → Prop) [DecidableRel r]
    (p : α → Bool) (a : α) :
    ∀ l : List α, p a = true → (∀ b ∈ l, p b = true → r a b) →
      (List.orderedInsert r a l).filter p = a :: l.filter p
  | [], hpa, _ => by simp [hpa]
  | b :: l, hpa, hal => by
    rw [List.orderedInsert]
    by_cases hr : r a b
    · rw [if_pos hr, List.filter_cons_of_pos hpa]
    · rw [if_neg hr]
      have hpb : p b = false := by
        rcases Bool.eq_false_or_eq_true (p b) with h | h
        · exact absurd (hal b (List.mem_cons_self b l) h) hr
        · exact h
      rw [List.filter_cons_of_neg (by simp [hpb]),
        filter_orderedInsert_pos r p a l hpa
          (fun c hc hpc => hal c (List.mem_cons_of_mem b hc) hpc),
        List.filter_cons_of_neg (by simp [hpb])]

theorem filter_orderedInsert_neg {α : Type} (r : α → α → Prop) [DecidableRel r]
    (p : α → Bool) (a : α) :
    ∀ l : List α, p a = false → (List.orderedInsert r a l).filter p = l.filter p
  | [], hpa => by simp [hpa]
  | b :: l, hpa => by
    rw [List.orderedInsert]
    by_cases hr : r a b
    · rw [if_pos hr, List.filter_cons_of_neg (by simp [hpa])]
    · rw [if_neg hr]
      by_cases hpb : p b = true
      · rw [List.filter_cons_of_pos hpb, List.filter_cons_of_pos hpb,
          filter_orderedInsert_neg r p a l hpa]
      · rw [List.filter_cons_of_neg (by simpa using hpb),
          List.filter_cons_of_neg (by simpa using hpb),
          filter_orderedInsert_neg r p a l hpa]

/-- A stable sort leaves the relative order of any class of mutually
tied elements unchanged: filtering the sorted list by a predicate whose
holders all compare at most each other gives the filter of the input. -/
theorem filter_insertionSort {α : Type} (r : α → α → Prop) [DecidableRel r]
    (p : α → Bool) (h : ∀ x y, p x = true → p y = true → r x y) :
    ∀ l : List α, (List.insertionSort r l).filter p = l.filter p
  | [] => rfl
  | a :: l => by
    rw [List.insertionSort]
    by_cases hpa : p a = true
    · rw [filter_orderedInsert_pos r p a _ hpa
        (fun b hb hpb => h a b hpa hpb),
        filter_insertionSort r p h l, List.filter_cons_of_pos hpa]
    · rw [filter_orderedInsert_neg r p a _ (by simpa using hpa),
        filter_insertionSort r p h l,
        List.filter_cons_of_neg (by simpa using hpa)]

/-! ### Structure of the chunk decomposition -/

theorem getLast?_cons_eq {α : Type} :
    ∀ (rest : List α) (c : α), (c :: rest).getLast? = some (rest.getLastD c)
  | [], c => rfl
  | b :: t, c => by
    rw [List.getLast?_cons_cons, getLast?_cons_eq t b, List.getLastD_cons]

theorem pairsOf_cons_cons (a b : CsvEntry) (l : List CsvEntry) :
    pairsOf (a :: b :: l) = (a, b) :: pairsOf (b :: l) := by
  simp [pairsOf]

theorem chunkByGap_cons_cons (thr : ℚ) (c next : CsvEntry) (rest : List CsvEntry)
    (ch : List CsvEntry) (chs : List (List CsvEntry))
    (h : chunkByGap thr (next :: rest) = ch :: chs) :
    chunkByGap thr (c :: next :: rest) =
      if gapSec c next ≤ thr then (c :: ch) :: chs else [c] :: ch :: chs := by
  rw [chunkByGap, h]

theorem chunkByGap_cons_decomp (thr : ℚ) :
    ∀ (rest : List CsvEntry) (c : CsvEntry),
      ∃ ch chs, chunkByGap thr (c :: rest) = (c :: ch) :: chs
  | [], _c => ⟨[], [], by rw [chunkByGap]⟩
  | next :: rest', c => by
    obtain ⟨ch, chs, h⟩ := chunkByGap_cons_decomp thr rest' next
    rw [chunkByGap_cons_cons thr c next rest' _ _ h]
    by_cases hg : gapSec c next ≤ thr
    · exact ⟨next :: ch, chs, by rw [if_pos hg]⟩
    · exact ⟨[], (next :: ch) :: chs, by rw [if_neg hg]⟩

theorem mergeBlock_single (B : List AggregatedBlock) (s : Int)
    (m : List (String × ℚ)) (c : CsvEntry) :
    mergeBlock s m [c] = closeBlock ⟨B, s, c.timestamp, m⟩ := by
  simp [mergeBlock, closeBlock, pairsOf]

theorem mergeBlock_cons (s : Int) (m : List (String × ℚ)) (c next : CsvEntry)
    (t : List CsvEntry) :
    mergeBlock s m (c :: next :: t) = mergeBlock s (mapUpd m (c, next)) (next :: t) := by
  simp only [mergeBlock, pairsOf_cons_cons, List.foldl_cons, List.getLastD_cons]

theorem aggLoop_cons_le (thr : ℚ) (c next : CsvEntry) (rest : List CsvEntry)
    (st : AggState) (hg : gapSec c next ≤ thr) :
    aggLoop thr c (next :: rest) st =
      aggLoop thr next rest
        ⟨st.blocks, st.blockStart, next.timestamp, mapUpd st.activityMap (c, next)⟩ := by
  rw [aggLoop, if_pos hg]

theorem aggLoop_cons_gt (thr : ℚ) (c next : CsvEntry) (rest : List CsvEntry)
    (st : AggState) (hg : ¬ gapSec c next ≤ thr) :
    aggLoop thr c (next :: rest) st =
      aggLoop thr next rest
        ⟨st.blocks ++ [closeBlock st], next.timestamp, next.timestamp, []⟩ := by
  rw [aggLoop, if_neg hg]

theorem aggLoop_flush (thr : ℚ) :
    ∀ (rest : List CsvEntry) (c : CsvEntry) (B : List AggregatedBlock) (s : Int)
      (m : List (String × ℚ)) (ch : List CsvEntry) (chs : List (List CsvEntry)),
      chunkByGap thr (c :: rest) = (c :: ch) :: chs →
      (aggLoop thr c rest ⟨B, s, c.timestamp, m⟩).blocks
          ++ [closeBlock (aggLoop thr c rest ⟨B, s, c.timestamp, m⟩)] =
        B ++ [mergeBlock s m (c :: ch)] ++ chs.map blockOfChunk
  | [], c, B, s, m, ch, chs, hdec => by
    have h1 : chunkByGap thr [c] = [[c]] := by rw [chunkByGap]
    rw [h1] at hdec
    injection hdec with h2 h3
    injection h2 with _h4 h5
    subst h3
    subst h5
    rw [aggLoop, mergeBlock_single B s m c]
    simp
  | next :: rest', c, B, s, m, ch, chs, hdec => by
    obtain ⟨ch₀, chs₀, h₀⟩ := chunkByGap_cons_decomp thr rest' next
    rw [chunkByGap_cons_cons thr c next rest' _ _ h₀] at hdec
    by_cases hg : gapSec c next ≤ thr
    · rw [if_pos hg] at hdec
      injection hdec with h2 h3
      injection h2 with _h4 h5
      subst h3
      subst h5
      rw [aggLoop_cons_le thr c next rest' _ hg]
      dsimp only
      rw [aggLoop_flush thr rest' next B s (mapUpd m (c, next)) ch₀ chs₀ h₀,
        mergeBlock_cons]
    · rw [if_neg hg] at hdec
      injection hdec with h2 h3
      injection h2 with _h4 h5
      subst h3
      subst h5
      rw [aggLoop_cons_gt thr c next rest' _ hg]
      dsimp only
      rw [aggLoop_flush thr rest' next (B ++ [closeBlock ⟨B, s, c.timestamp, m⟩])
        next.timestamp [] ch₀ chs₀ h₀,
        ← mergeBlock_single B s m c]
      have hb : blockOfChunk (next :: ch₀) = mergeBlock next.timestamp [] (next :: ch₀) := by
        rw [blockOfChunk]
      rw [List.map_cons, hb]
      simp

/-- The scan of aggregateToBlocks equals the chunk decomposition: one
block per maximal run of records whose consecutive gaps are at most the
threshold. -/
theorem aggregateToBlocks_eq_chunks (entries : List CsvEntry) (thr : ℚ) :
    aggregateToBlocks entries thr = (chunkByGap thr entries).map blockOfChunk := by
  match entries with
  | [] => rfl
  | e :: rest =>
    obtain ⟨ch, chs, hdec⟩ := chunkByGap_cons_decomp thr rest e
    rw [aggregateToBlocks]
    rw [aggLoop_flush thr rest e [] e.timestamp [] ch chs hdec, hdec]
    have hb : blockOfChunk (e :: ch) = mergeBlock e.timestamp [] (e :: ch) := by
      rw [blockOfChunk]
    rw [List.map_cons, hb]
    simp

theorem chunkByGap_flatten (thr : ℚ) :
    ∀ l : List CsvEntry, (chunkByGap thr l).flatten = l
  | [] => by rw [chunkByGap]; rfl
  | [c] => by rw [chunkByGap]; rfl
  | c :: next :: rest => by
    obtain ⟨ch₀, chs₀, h₀⟩ := chunkByGap_cons_decomp thr rest next
    have hIH := chunkByGap_flatten thr (next :: rest)
    rw [h₀] at hIH
    rw [chunkByGap_cons_cons thr c next rest _ _ h₀]
    by_cases hg : gapSec c next ≤ thr
    · rw [if_pos hg, List.flatten_cons]
      rw [List.flatten_cons] at hIH
      simpa using hIH
    · rw [if_neg hg, List.flatten_cons, List.flatten_cons]
      rw [List.flatten_cons] at hIH
      simpa using hIH

theorem chunkByGap_ne_nil (thr : ℚ) :
    ∀ l : List CsvEntry, ∀ ch ∈ chunkByGap thr l, ch ≠ []
  | [] => by rw [chunkByGap]; simp
  | [c] => by rw [chunkByGap]; simp
  | c :: next :: rest => by
    obtain ⟨ch₀, chs₀, h₀⟩ := chunkByGap_cons_decomp thr rest next
    have hIH := chunkByGap_ne_nil thr (next :: rest)
    rw [h₀] at hIH
    rw [chunkByGap_cons_cons thr c next rest _ _ h₀]
    by_cases hg : gapSec c next ≤ thr
    · rw [if_pos hg]
      intro ch hch
      rcases List.mem_cons.1 hch with h | h
      · subst h; simp
      · exact hIH ch (List.mem_cons_of_mem _ h)
    · rw [if_neg hg]
      intro ch hch
      rcases List.mem_cons.1 hch with h | h
      · subst h; simp
      · exact hIH ch h

theorem chunkByGap_chain (thr : ℚ) :
    ∀ l : List CsvEntry, ∀ ch ∈ chunkByGap thr l,
      ch.Chain' (fun a b => gapSec a b ≤ thr)
  | [] => by rw [chunkByGap]; simp
  | [c] => by rw [chunkByGap]; simp
  | c :: next :: rest => by
    obtain ⟨ch₀, chs₀, h₀⟩ := chunkByGap_cons_decomp thr rest next
    have hIH := chunkByGap_chain thr (next :: rest)
    rw [h₀] at hIH
    rw [chunkByGap_cons_cons thr c next rest _ _ h₀]
    by_cases hg : gapSec c next ≤ thr
    · rw [if_pos hg]
      intro ch hch
      rcases List.mem_cons.1 hch with h | h
      · subst h
        exact List.chain'_cons.2 ⟨hg, hIH _ (List.mem_cons_self _ _)⟩
      · exact hIH ch (List.mem_cons_of_mem _ h)
    · rw [if_neg hg]
      intro ch hch
      rcases List.mem_cons.1 hch with h | h
      · subst h; simp
      · exact hIH ch h

theorem chunkByGap_boundary (thr : ℚ) :
    ∀ l : List CsvEntry,
      (chunkByGap thr l).Chain' (fun ch₁ ch₂ => ∀ a b,
        ch₁.getLast? = some a → ch₂.head? = some b → thr < gapSec a b)
  | [] => by rw [chunkByGap]; simp
  | [c] => by rw [chunkByGap]; simp
  | c :: next :: rest => by
    obtain ⟨ch₀, chs₀, h₀⟩ := chunkByGap_cons_decomp thr rest next
    have hIH := chunkByGap_boundary thr (next :: rest)
    rw [h₀] at hIH
    rw [chunkByGap_cons_cons thr c next rest _ _ h₀]
    by_cases hg : gapSec c next ≤ thr
    · rw [if_pos hg]
      rcases List.chain'_cons'.1 hIH with ⟨hlink, htail⟩
      refine List.chain'_cons'.2 ⟨?_, htail⟩
      intro ch₂ hch₂ a b ha hb
      refine hlink ch₂ hch₂ a b ?_ hb
      rw [List.getLast?_cons_cons] at ha
      exact ha
    · rw [if_neg hg]
      refine List.chain'_cons'.2 ⟨?_, hIH⟩
      intro ch₂ hch₂ a b ha hb
      obtain rfl : next :: ch₀ = ch₂ := by simpa using hch₂
      obtain rfl : c = a := by simpa using ha
      obtain rfl : next = b := by simpa using hb
      exact lt_of_not_le hg

/-! ### Sorted inputs and degenerate thresholds -/

theorem sortedByTs_cons_cons {a b : CsvEntry} {l : List CsvEntry} :
    sortedByTs (a :: b :: l) = true ↔
      a.timestamp ≤ b.timestamp ∧ sortedByTs (b :: l) = true := by
  simp [sortedByTs]

theorem sortedByTs_head_last :
    ∀ (rest : List CsvEntry) (c : CsvEntry), sortedByTs (c :: rest) = true →
      c.timestamp ≤ (rest.getLastD c).timestamp
  | [], _c, _ => le_refl _
  | next :: rest', c, h => by
    rw [List.getLastD_cons]
    rcases sortedByTs_cons_cons.1 h with ⟨h1, h2⟩
    exact le_trans h1 (sortedByTs_head_last rest' next h2)

theorem sortedByTs_chunks (thr : ℚ) :
    ∀ l : List CsvEntry, sortedByTs l = true →
      ∀ ch ∈ chunkByGap thr l, sortedByTs ch = true
  | [], _, ch, hch => by rw [chunkByGap] at hch; simp at hch
  | [c], _, ch, hch => by
    rw [chunkByGap] at hch
    simp at hch
    subst hch
    rfl
  | c :: next :: rest, h, ch, hch => by
    obtain ⟨ch₀, chs₀, h₀⟩ := chunkByGap_cons_decomp thr rest next
    have hIH := sortedByTs_chunks thr (next :: rest) (sortedByTs_cons_cons.1 h).2
    rw [h₀] at hIH
    rw [chunkByGap_cons_cons thr c next rest _ _ h₀] at hch
    by_cases hg : gapSec c next ≤ thr
    · rw [if_pos hg] at hch
      rcases List.mem_cons.1 hch with h1 | h1
      · subst h1
        exact sortedByTs_cons_cons.2
          ⟨(sortedByTs_cons_cons.1 h).1, hIH _ (List.mem_cons_self _ _)⟩
      · exact hIH ch (List.mem_cons_of_mem _ h1)
    · rw [if_neg hg] at hch
      rcases List.mem_cons.1 hch with h1 | h1
      · subst h1; rfl
      · exact hIH ch h1

theorem gapSec_nonneg {a b : CsvEntry} (h : a.timestamp ≤ b.timestamp) :
    0 ≤ gapSec a b := by
  unfold gapSec
  have h0 : (0 : ℚ) ≤ ((b.timestamp - a.timestamp : Int) : ℚ) := by
    exact_mod_cast Int.sub_nonneg.2 h
  exact div_nonneg h0 (by norm_num)

theorem chunkByGap_all_split (thr : ℚ) :
    ∀ l : List CsvEntry, (∀ p ∈ pairsOf l, ¬ gapSec p.1 p.2 ≤ thr) →
      chunkByGap thr l = l.map (fun e => [e])
  | [], _ => by rw [chunkByGap]; rfl
  | [c], _ => by rw [chunkByGap]; rfl
  | c :: next :: rest, h => by
    obtain ⟨ch₀, chs₀, h₀⟩ := chunkByGap_cons_decomp thr rest next
    have hIH := chunkByGap_all_split thr (next :: rest)
      (fun p hp => h p (by rw [pairsOf_cons_cons]; exact List.mem_cons_of_mem _ hp))
    rw [chunkByGap_cons_cons thr c next rest _ _ h₀,
      if_neg (h (c, next) (by rw [pairsOf_cons_cons]; exact List.mem_cons_self _ _))]
    rw [h₀] at hIH
    rw [List.map_cons, ← hIH]

/-! ### Last element of a flattened chunk list -/

theorem getLastD_mem {α : Type} : ∀ (l : List α) (d : α), l.getLastD d ∈ d :: l
  | [], d => List.mem_singleton.2 rfl
  | b :: t, d => by
    rw [List.getLastD_cons]
    exact List.mem_cons_of_mem d (getLastD_mem t b)

theorem getLast?_flatten :
    ∀ (L : List (List CsvEntry)), (∀ x ∈ L, x ≠ []) →
      L.flatten.getLast? = L.getLast?.bind List.getLast?
  | [], _ => rfl
  | [x], _ => by simp
  | x :: y :: L, h => by
    have hIH := getLast?_flatten (y :: L) (fun z hz => h z (List.mem_cons_of_mem _ hz))
    rw [List.flatten_cons, List.getLast?_append, hIH, List.getLast?_cons_cons,
      getLast?_cons_eq]
    have hne : L.getLastD y ≠ [] :=
      h _ (List.mem_cons_of_mem x (getLastD_mem L y))
    cases hv : (L.getLastD y).getLast? with
    | none => exact absurd (List.getLast?_eq_none_iff.1 hv) hne
    | some a =>
      rw [show ((some (L.getLastD y)).bind List.getLast?) =
        (L.getLastD y).getLast? from rfl, hv]
      rfl

/-! ### The per-title accumulator of one block -/

theorem chunkMap_eq (ps : List (CsvEntry × CsvEntry)) :
    ps.foldl mapUpd [] =
      (firstKeys (ps.map (fun p => p.1.title))).map
        (fun t => (t, ((ps.filter (fun p => p.1.title = t)).map
          (fun p => gapSec p.1 p.2)).sum)) := by
  have h := groupFold_eq (fun p : CsvEntry × CsvEntry => p.1.title)
    (fun _ => (0 : ℚ)) (fun s p => s + gapSec p.1 p.2) ps
  unfold groupFold at h
  rw [show ps.foldl mapUpd [] =
      ps.foldl (fun acc b => updAssoc b.1.title
        (fun s => s + gapSec b.1 b.2) (0 : ℚ) acc) [] from rfl, h]
  refine List.map_congr_left (fun t _ => ?_)
  rw [foldl_add_eq_sum, zero_add]

theorem sum_over_firstKeys {β κ : Type} [DecidableEq κ] (key : β → κ) (g : β → ℚ) :
    ∀ l : List β,
      ((firstKeys (l.map key)).map
        (fun k => ((l.filter (fun b => key b = k)).map g).sum)).sum = (l.map g).sum
  | [] => by simp [firstKeys_nil]
  | b :: l => by
    rw [List.map_cons, firstKeys_cons]
    have hfm : (l.map key).filter (fun x => x ≠ key b) =
        (l.filter (fun c => key c ≠ key b)).map key := by
      rw [List.filter_map]
      rfl
    rw [hfm]
    have hIH := sum_over_firstKeys key g (l.filter (fun c => key c ≠ key b))
    rw [List.map_cons, List.sum_cons, List.filter_cons_of_pos (by simp)]
    have htail : (firstKeys ((l.filter (fun c => key c ≠ key b)).map key)).map
          (fun k => (((b :: l).filter (fun c => key c = k)).map g).sum) =
        (firstKeys ((l.filter (fun c => key c ≠ key b)).map key)).map
          (fun k => (((l.filter (fun c => key c ≠ key b)).filter
            (fun c => key c = k)).map g).sum) := by
      refine List.map_congr_left (fun k hk => ?_)
      have hkne : k ≠ key b := by
        rw [mem_firstKeys] at hk
        obtain ⟨c, hc, rfl⟩ := List.mem_map.1 hk
        simpa using (List.mem_filter.1 hc).2
      rw [List.filter_cons_of_neg (by simpa using fun h => hkne h.symm)]
      have hff : (l.filter (fun c => key c ≠ key b)).filter (fun c => key c = k) =
          l.filter (fun c => key c = k) := by
        rw [List.filter_filter]
        refine List.filter_congr (fun c _ => ?_)
        by_cases h : key c = k
        · have : key c ≠ key b := by rw [h]; exact hkne
          simp [h, this, hkne]
        · simp [h]
      rw [hff]
    rw [htail, hIH]
    have hl' : l.filter (fun c => !decide (key c = key b)) =
        l.filter (fun c => key c ≠ key b) := by
      refine List.filter_congr (fun c _ => ?_)
      simp [decide_not]
    have hsplit := sum_filter_split (fun c => decide (key c = key b)) g l
    rw [hl'] at hsplit
    rw [List.map_cons, List.sum_cons, add_assoc, hsplit, List.map_cons, List.sum_cons]
termination_by l => l.length
decreasing_by
  simpa [Nat.lt_succ_iff] using List.length_filter_le _ _

/-! ### Fields of a closed block -/

theorem blockOfChunk_from (c : CsvEntry) (rest : List CsvEntry) :
    (blockOfChunk (c :: rest)).«from» = c.timestamp := rfl

theorem blockOfChunk_to (c : CsvEntry) (rest : List CsvEntry) :
    (blockOfChunk (c :: rest)).«to» = (rest.getLastD c).timestamp := rfl

theorem blockOfChunk_total (c : CsvEntry) (rest : List CsvEntry) :
    (blockOfChunk (c :: rest)).totalDurationSec =
      (jsValues ((pairsOf (c :: rest)).foldl mapUpd [])).sum := rfl

theorem blockOfChunk_activities (c : CsvEntry) (rest : List CsvEntry) :
    (blockOfChunk (c :: rest)).activities =
      (jsEntries ((pairsOf (c :: rest)).foldl mapUpd [])).map (fun p => ⟨p.1, p.2⟩) := rfl

/-! ### Characterisation of the day and week grouping passes -/

theorem foldl_dayStep :
    ∀ (bs : List AggregatedBlock) (k : Int) (bl : List AggregatedBlock) (t : ℚ),
      bs.foldl (fun s b =>
          ⟨s.date, s.blocks ++ [b], s.totalDurationSec + b.totalDurationSec⟩)
        (⟨k, bl, t⟩ : DayData) =
      ⟨k, bl ++ bs, t + (bs.map (fun b => b.totalDurationSec)).sum⟩
  | [], k, bl, t => by simp
  | b :: bs, k, bl, t => by
    rw [List.foldl_cons, foldl_dayStep bs k (bl ++ [b]) (t + b.totalDurationSec)]
    simp [add_assoc]

theorem foldl_weekStep :
    ∀ (ds : List DayData) (k : Int) (dl : List DayData) (t : ℚ),
      ds.foldl (fun s d =>
          ⟨s.weekStart, s.days ++ [d], s.totalDurationSec + d.totalDurationSec⟩)
        (⟨k, dl, t⟩ : WeekData) =
      ⟨k, dl ++ ds, t + (ds.map (fun d => d.totalDurationSec)).sum⟩
  | [], k, dl, t => by simp
  | d :: ds, k, dl, t => by
    rw [List.foldl_cons, foldl_weekStep ds k (dl ++ [d]) (t + d.totalDurationSec)]
    simp [add_assoc]

theorem groupBlocksByDay_eq (tz : Int) (blocks : List AggregatedBlock) :
    groupBlocksByDay tz blocks =
      (firstKeys (blocks.map (fun b => dayMidnight tz b.«from»))).map
        (fun k => ⟨k, blocks.filter (fun b => dayMidnight tz b.«from» = k),
          ((blocks.filter (fun b => dayMidnight tz b.«from» = k)).map
            (fun b => b.totalDurationSec)).sum⟩) := by
  unfold groupBlocksByDay
  rw [groupFold_eq, List.map_map]
  refine List.map_congr_left (fun k _ => ?_)
  simp only [Function.comp_apply]
  rw [foldl_dayStep]
  simp

theorem groupBlocksByWeek_eq (tz : Int) (blocks : List AggregatedBlock) :
    groupBlocksByWeek tz blocks =
      List.insertionSort weekLe
        ((firstKeys ((groupBlocksByDay tz blocks).map (fun d => getMonday tz d.date))).map
          (fun k => ⟨k,
            (groupBlocksByDay tz blocks).filter (fun d => getMonday tz d.date = k),
            (((groupBlocksByDay tz blocks).filter
              (fun d => getMonday tz d.date = k)).map
                (fun d => d.totalDurationSec)).sum⟩)) := by
  unfold groupBlocksByWeek
  congr 1
  rw [groupFold_eq, List.map_map]
  refine List.map_congr_left (fun k _ => ?_)
  simp only [Function.comp_apply]
  rw [foldl_weekStep]
  simp

/-! ### Arithmetic of the Monday computation -/

theorem getMonday_sunday (tz t : Int) (h : weekdayOf tz t = 0) :
    getMonday tz t = dayMidnight tz t - 6 * 86400000 := by
  unfold getMonday dayMidnight
  rw [h]
  norm_num
  ring

theorem getMonday_monday (tz t : Int) (h : weekdayOf tz t = 1) :
    getMonday tz t = dayMidnight tz t := by
  unfold getMonday dayMidnight
  rw [h]
  norm_num

theorem weekdayOf_getMonday (tz t : Int) : weekdayOf tz (getMonday tz t) = 1 := by
  unfold getMonday weekdayOf localDayNum
  set n : Int := (t + tz) / 86400000 with hn
  have h64 : (n + ((if (n + 4) % 7 = 0 then (-6 : Int) else 1) - (n + 4) % 7))
        * 86400000 - tz + tz =
      (n + ((if (n + 4) % 7 = 0 then (-6 : Int) else 1) - (n + 4) % 7)) * 86400000 := by
    ring
  rw [h64, Int.mul_ediv_cancel _ (by norm_num)]
  by_cases h : (n + 4) % 7 = 0
  · rw [if_pos h]
    omega
  · rw [if_neg h]
    omega

/-! ### The title order of a flattened activity map -/

/-- The ECMAScript own-property order on a list of title keys:
array-index titles first in ascending numeric order, then the remaining
titles in first-insertion order. -/
def jsTitleOrder (ts : List String) : List String :=
  List.insertionSort numStrLe (ts.filter isArrayIndexKey)
    ++ ts.filter (fun t => !isArrayIndexKey t)

theorem map_fst_orderedInsert {σ : Type} (a : String × σ) :
    ∀ l : List (String × σ),
      (List.orderedInsert numPairLe a l).map Prod.fst =
        List.orderedInsert numStrLe a.1 (l.map Prod.fst)
  | [] => rfl
  | b :: l => by
    rw [List.map_cons, List.orderedInsert, List.orderedInsert]
    by_cases h : numPairLe a b
    · rw [if_pos h, if_pos (show numStrLe a.1 b.1 from h)]
      rfl
    · rw [if_neg h, if_neg (show ¬ numStrLe a.1 b.1 from h)]
      rw [List.map_cons, map_fst_orderedInsert a l]

theorem map_fst_insertionSort {σ : Type} :
    ∀ l : List (String × σ),
      (List.insertionSort numPairLe l).map Prod.fst =
        List.insertionSort numStrLe (l.map Prod.fst)
  | [] => rfl
  | a :: l => by
    rw [List.insertionSort, List.map_cons, List.insertionSort,
      map_fst_orderedInsert, map_fst_insertionSort l]

theorem jsEntries_map_fst {σ : Type} (m : List (String × σ)) :
    (jsEntries m).map Prod.fst = jsTitleOrder (m.map Prod.fst) := by
  unfold jsEntries jsTitleOrder
  rw [List.map_append, map_fst_insertionSort]
  congr 1
  · congr 1
    rw [List.filter_map]
    rfl
  · rw [List.filter_map]
    rfl

/-! ### Derived facts about one closed block -/

theorem chunkMap_fst (ps : List (CsvEntry × CsvEntry)) :
    (ps.foldl mapUpd []).map Prod.fst = firstKeys (ps.map (fun p => p.1.title)) := by
  rw [chunkMap_eq, List.map_map]
  have hcomp : (Prod.fst ∘ fun t : String => (t,
      ((ps.filter (fun p => p.1.title = t)).map (fun p => gapSec p.1 p.2)).sum)) = id := rfl
  rw [hcomp, List.map_id]

theorem blockOfChunk_activities_dur (c : CsvEntry) (rest : List CsvEntry) :
    (blockOfChunk (c :: rest)).activities.map (fun a => a.durationSec) =
      jsValues ((pairsOf (c :: rest)).foldl mapUpd []) := by
  rw [blockOfChunk_activities, List.map_map]
  rfl

theorem blockOfChunk_activities_title (c : CsvEntry) (rest : List CsvEntry) :
    (blockOfChunk (c :: rest)).activities.map (fun a => a.title) =
      jsTitleOrder (firstKeys ((pairsOf (c :: rest)).map (fun p => p.1.title))) := by
  rw [blockOfChunk_activities, List.map_map]
  have hcomp : ((fun a : AggregatedActivity => a.title) ∘ fun p : String × ℚ =>
      (⟨p.1, p.2⟩ : AggregatedActivity)) = Prod.fst := rfl
  rw [hcomp, jsEntries_map_fst, chunkMap_fst]

theorem blockOfChunk_total_eq_activities (c : CsvEntry) (rest : List CsvEntry) :
    (blockOfChunk (c :: rest)).totalDurationSec =
      ((blockOfChunk (c :: rest)).activities.map (fun a => a.durationSec)).sum := by
  rw [blockOfChunk_total, blockOfChunk_activities_dur]

theorem blockOfChunk_total_eq_gaps (c : CsvEntry) (rest : List CsvEntry) :
    (blockOfChunk (c :: rest)).totalDurationSec =
      ((pairsOf (c :: rest)).map (fun p => gapSec p.1 p.2)).sum := by
  rw [blockOfChunk_total, jsValues_sum, chunkMap_eq, List.map_map]
  have hcomp : (Prod.snd ∘ fun t : String => (t,
      (((pairsOf (c :: rest)).filter
        (fun p : CsvEntry × CsvEntry => p.1.title = t)).map
        (fun p => gapSec p.1 p.2)).sum)) = (fun t : String =>
      (((pairsOf (c :: rest)).filter
        (fun p : CsvEntry × CsvEntry => p.1.title = t)).map
        (fun p => gapSec p.1 p.2)).sum) := rfl
  rw [hcomp]
  exact sum_over_firstKeys (fun p : CsvEntry × CsvEntry => p.1.title)
    (fun p => gapSec p.1 p.2) _

theorem blockOfChunk_titles_nodup (c : CsvEntry) (rest : List CsvEntry) :
    ((blockOfChunk (c :: rest)).activities.map (fun a => a.title)).Nodup := by
  rw [blockOfChunk_activities_title]
  unfold jsTitleOrder
  have hperm : List.Perm
      (List.insertionSort numStrLe
        ((firstKeys ((pairsOf (c :: rest)).map (fun p => p.1.title))).filter
          isArrayIndexKey)
        ++ (firstKeys ((pairsOf (c :: rest)).map (fun p => p.1.title))).filter
          (fun t => !isArrayIndexKey t))
      (firstKeys ((pairsOf (c :: rest)).map (fun p => p.1.title))) :=
    ((List.perm_insertionSort numStrLe _).append_right _).trans
      (List.filter_append_perm _ _)
  exact hperm.nodup_iff.2 (nodup_firstKeys _)

theorem blockOfChunk_activities_mem (c : CsvEntry) (rest : List CsvEntry) :
    ∀ act ∈ (blockOfChunk (c :: rest)).activities,
      act.durationSec = (((pairsOf (c :: rest)).filter
        (fun p => p.1.title = act.title)).map (fun p => gapSec p.1 p.2)).sum := by
  intro act hact
  rw [blockOfChunk_activities] at hact
  obtain ⟨p, hp, rfl⟩ := List.mem_map.1 hact
  have hp' : p ∈ (pairsOf (c :: rest)).foldl mapUpd [] :=
    (jsEntries_perm _).mem_iff.1 hp
  rw [chunkMap_eq] at hp'
  obtain ⟨t, _, heq⟩ := List.mem_map.1 hp'
  rw [← heq]

theorem chain'_imp_of_mem {α : Type} {R S : α → α → Prop} :
    ∀ l : List α, (∀ a ∈ l, ∀ b ∈ l, R a b → S a b) → l.Chain' R → l.Chain' S
  | [], _, _ => List.chain'_nil
  | [_], _, _ => List.chain'_singleton _
  | a :: b :: l, h, hch => by
    rcases List.chain'_cons.1 hch with ⟨hab, htail⟩
    refine List.chain'_cons.2 ⟨h a (by simp) b (by simp) hab, ?_⟩
    exact chain'_imp_of_mem (b :: l)
      (fun x hx y hy => h x (List.mem_cons_of_mem _ hx) y (List.mem_cons_of_mem _ hy))
      htail

theorem headD_mem_of_ne_nil {α : Type} [Inhabited α] :
    ∀ l : List α, l ≠ [] → l.headD default ∈ l
  | [], h => absurd rfl h
  | _a :: _l, _ => List.mem_cons_self _ _

theorem aggregate_ne_nil (entries : List CsvEntry) (thr : ℚ)
    (h : entries ≠ []) : aggregateToBlocks entries thr ≠ [] := by
  match entries, h with
  | e :: rest, _ =>
    obtain ⟨ch, chs, hdec⟩ := chunkByGap_cons_decomp thr rest e
    rw [aggregateToBlocks_eq_chunks, hdec]
    simp

theorem mem_aggregate_chunk (entries : List CsvEntry) (thr : ℚ) :
    ∀ b ∈ aggregateToBlocks entries thr, ∃ c rest,
      (c :: rest) ∈ chunkByGap thr entries ∧ b = blockOfChunk (c :: rest) := by
  intro b hb
  rw [aggregateToBlocks_eq_chunks] at hb
  obtain ⟨ch, hch, rfl⟩ := List.mem_map.1 hb
  match ch, chunkByGap_ne_nil thr entries ch hch with
  | c :: rest, _ => exact ⟨c, rest, hch, rfl⟩

theorem aggregate_from_le_to (entries : List CsvEntry) (thr : ℚ)
    (hs : sortedByTs entries = true) :
    ∀ b ∈ aggregateToBlocks entries thr, b.«from» ≤ b.«to» := by
  intro b hb
  obtain ⟨c, rest, hch, rfl⟩ := mem_aggregate_chunk entries thr b hb
  rw [blockOfChunk_from, blockOfChunk_to]
  exact sortedByTs_head_last rest c (sortedByTs_chunks thr entries hs _ hch)

theorem sortedByTs_pairs :
    ∀ l : List CsvEntry, sortedByTs l = true →
      ∀ p ∈ pairsOf l, p.1.timestamp ≤ p.2.timestamp
  | [], _, p, hp => by simp [pairsOf] at hp
  | [_c], _, p, hp => by simp [pairsOf] at hp
  | a :: b :: l, h, p, hp => by
    rw [pairsOf_cons_cons] at hp
    rcases List.mem_cons.1 hp with h1 | h1
    · subst h1
      exact (sortedByTs_cons_cons.1 h).1
    · exact sortedByTs_pairs (b :: l) (sortedByTs_cons_cons.1 h).2 p h1

theorem chain'_lt_head :
    ∀ (L : List AggregatedBlock) (b : AggregatedBlock),
      (∀ x ∈ L, x.«from» ≤ x.«to») →
      (b :: L).Chain' (fun b₁ b₂ => b₁.«to» < b₂.«from») →
      ∀ b' ∈ L, b.«to» < b'.«from»
  | [], _b, _, _, b', hb' => by simp at hb'
  | c :: L, b, hft, hch, b', hb' => by
    have h1 : b.«to» < c.«from» := (List.chain'_cons.1 hch).1
    rcases List.mem_cons.1 hb' with h2 | h2
    · subst h2; exact h1
    · have h3 : c.«from» ≤ c.«to» := hft c (List.mem_cons_self _ _)
      have h4 := chain'_lt_head L c (fun x hx => hft x (List.mem_cons_of_mem _ hx))
        (List.chain'_cons.1 hch).2 b' h2
      exact lt_trans h1 (lt_of_le_of_lt h3 h4)

theorem chain'_lt_pairwise :
    ∀ L : List AggregatedBlock,
      (∀ x ∈ L, x.«from» ≤ x.«to») →
      L.Chain' (fun b₁ b₂ => b₁.«to» < b₂.«from») →
      L.Pairwise (fun b₁ b₂ => b₁.«from» < b₂.«from» ∧ b₁.«to» < b₂.«from»)
  | [], _, _ => List.Pairwise.nil
  | b :: L, hft, hch => by
    have htail : L.Chain' (fun b₁ b₂ => b₁.«to» < b₂.«from») :=
      (List.chain'_cons'.1 hch).2
    have hIH := chain'_lt_pairwise L
      (fun x hx => hft x (List.mem_cons_of_mem _ hx)) htail
    refine List.pairwise_cons.2 ⟨?_, hIH⟩
    intro b' hb'
    have hlt := chain'_lt_head L b
      (fun x hx => hft x (List.mem_cons_of_mem _ hx)) hch b' hb'
    exact ⟨lt_of_le_of_lt (hft b (List.mem_cons_self _ _)) hlt, hlt⟩

/-! ### The chunk decomposition of the plain-object aggregator -/

theorem mergeBlockJs_single (B : List JsBlock) (s : Int)
    (m : List (String × JsVal)) (c : CsvEntry) :
    mergeBlockJs s m [c] = closeBlockJs ⟨B, s, c.timestamp, m⟩ := by
  simp [mergeBlockJs, closeBlockJs, pairsOf]

theorem mergeBlockJs_cons (s : Int) (m : List (String × JsVal)) (c next : CsvEntry)
    (t : List CsvEntry) :
    mergeBlockJs s m (c :: next :: t) =
      mergeBlockJs s (mapUpdJs m (c, next)) (next :: t) := by
  simp only [mergeBlockJs, pairsOf_cons_cons, List.foldl_cons, List.getLastD_cons]

theorem aggLoopJs_cons_le (thr : ℚ) (c next : CsvEntry) (rest : List CsvEntry)
    (st : JsAggState) (hg : gapSec c next ≤ thr) :
    aggLoopJs thr c (next :: rest) st =
      aggLoopJs thr next rest
        ⟨st.blocks, st.blockStart, next.timestamp, mapUpdJs st.activityMap (c, next)⟩ := by
  rw [aggLoopJs, if_pos hg]

theorem aggLoopJs_cons_gt (thr : ℚ) (c next : CsvEntry) (rest : List CsvEntry)
    (st : JsAggState) (hg : ¬ gapSec c next ≤ thr) :
    aggLoopJs thr c (next :: rest) st =
      aggLoopJs thr next rest
        ⟨st.blocks ++ [closeBlockJs st], next.timestamp, next.timestamp, []⟩ := by
  rw [aggLoopJs, if_neg hg]

theorem aggLoopJs_flush (thr : ℚ) :
    ∀ (rest : List CsvEntry) (c : CsvEntry) (B : List JsBlock) (s : Int)
      (m : List (String × JsVal)) (ch : List CsvEntry) (chs : List (List CsvEntry)),
      chunkByGap thr (c :: rest) = (c :: ch) :: chs →
      (aggLoopJs thr c rest ⟨B, s, c.timestamp, m⟩).blocks
          ++ [closeBlockJs (aggLoopJs thr c rest ⟨B, s, c.timestamp, m⟩)] =
        B ++ [mergeBlockJs s m (c :: ch)] ++ chs.map blockOfChunkJs
  | [], c, B, s, m, ch, chs, hdec => by
    have h1 : chunkByGap thr [c] = [[c]] := by rw [chunkByGap]
    rw [h1] at hdec
    injection hdec with h2 h3
    injection h2 with _h4 h5
    subst h3
    subst h5
    rw [aggLoopJs, mergeBlockJs_single B s m c]
    simp
  | next :: rest', c, B, s, m, ch, chs, hdec => by
    obtain ⟨ch₀, chs₀, h₀⟩ := chunkByGap_cons_decomp thr rest' next
    rw [chunkByGap_cons_cons thr c next rest' _ _ h₀] at hdec
    by_cases hg : gapSec c next ≤ thr
    · rw [if_pos hg] at hdec
      injection hdec with h2 h3
      injection h2 with _h4 h5
      subst h3
      subst h5
      rw [aggLoopJs_cons_le thr c next rest' _ hg]
      dsimp only
      rw [aggLoopJs_flush thr rest' next B s (mapUpdJs m (c, next)) ch₀ chs₀ h₀,
        mergeBlockJs_cons]
    · rw [if_neg hg] at hdec
      injection hdec with h2 h3
      injection h2 with _h4 h5
      subst h3
      subst h5
      rw [aggLoopJs_cons_gt thr c next rest' _ hg]
      dsimp only
      rw [aggLoopJs_flush thr rest' next (B ++ [closeBlockJs ⟨B, s, c.timestamp, m⟩])
        next.timestamp [] ch₀ chs₀ h₀,
        ← mergeBlockJs_single B s m c]
      have hb : blockOfChunkJs (next :: ch₀) =
          mergeBlockJs next.timestamp [] (next :: ch₀) := by
        rw [blockOfChunkJs]
      rw [List.map_cons, hb]
      simp

/-- The plain-object scan also equals the chunk decomposition: one block
per maximal run, now with the faithful accumulator. -/
theorem aggregateToBlocksJs_eq_chunks (entries : List CsvEntry) (thr : ℚ) :
    aggregateToBlocksJs entries thr = (chunkByGap thr entries).map blockOfChunkJs := by
  match entries with
  | [] => rfl
  | e :: rest =>
    obtain ⟨ch, chs, hdec⟩ := chunkByGap_cons_decomp thr rest e
    rw [aggregateToBlocksJs]
    rw [aggLoopJs_flush thr rest e [] e.timestamp [] ch chs hdec, hdec]
    have hb : blockOfChunkJs (e :: ch) = mergeBlockJs e.timestamp [] (e :: ch) := by
      rw [blockOfChunkJs]
    rw [List.map_cons, hb]
    simp

theorem aggregateJs_ne_nil (entries : List CsvEntry) (thr : ℚ)
    (h : entries ≠ []) : aggregateToBlocksJs entries thr ≠ [] := by
  match entries, h with
  | e :: rest, _ =>
    obtain ⟨ch, chs, hdec⟩ := chunkByGap_cons_decomp thr rest e
    rw [aggregateToBlocksJs_eq_chunks, hdec]
    simp

theorem mem_aggregateJs_chunk (entries : List CsvEntry) (thr : ℚ) :
    ∀ b ∈ aggregateToBlocksJs entries thr, ∃ c rest,
      (c :: rest) ∈ chunkByGap thr entries ∧ b = blockOfChunkJs (c :: rest) := by
  intro b hb
  rw [aggregateToBlocksJs_eq_chunks] at hb
  obtain ⟨ch, hch, rfl⟩ := List.mem_map.1 hb
  match ch, chunkByGap_ne_nil thr entries ch hch with
  | c :: rest, _ => exact ⟨c, rest, hch, rfl⟩

theorem blockOfChunkJs_from (c : CsvEntry) (rest : List CsvEntry) :
    (blockOfChunkJs (c :: rest)).«from» = c.timestamp := rfl

theorem blockOfChunkJs_to (c : CsvEntry) (rest : List CsvEntry) :
    (blockOfChunkJs (c :: rest)).«to» = (rest.getLastD c).timestamp := rfl

theorem blockOfChunkJs_total (c : CsvEntry) (rest : List CsvEntry) :
    (blockOfChunkJs (c :: rest)).totalDurationSec =
      (jsValues ((pairsOf (c :: rest)).foldl mapUpdJs [])).foldl jsAdd (.num 0) := rfl

theorem blockOfChunkJs_activities (c : CsvEntry) (rest : List CsvEntry) :
    (blockOfChunkJs (c :: rest)).activities =
      (jsEntries ((pairsOf (c :: rest)).foldl mapUpdJs [])).map
        (fun p => ⟨p.1, p.2⟩) := rfl

/-! ### Characterisation of the plain-object accumulator -/

/-- The per-key value transformation of one plain-object update:
(v || 0) + gap with the + operator. -/
def jsStep (v : JsVal) (p : CsvEntry × CsvEntry) : JsVal :=
  jsAdd (if jsTruthy v then v else .num 0) (.num (gapSec p.1 p.2))

theorem foldl_mapUpdJs_filter :
    ∀ (ps : List (CsvEntry × CsvEntry)) (m : List (String × JsVal)),
      ps.foldl mapUpdJs m =
        (ps.filter (fun p => p.1.title ≠ "__proto__")).foldl
          (fun a p => updAssoc p.1.title (fun v => jsStep v p)
            (objDefault p.1.title) a) m
  | [], _m => rfl
  | p :: ps, m => by
    by_cases hp : p.1.title = "__proto__"
    · rw [List.foldl_cons, List.filter_cons_of_neg (by simpa using hp)]
      have hid : mapUpdJs m p = m := by
        simp [mapUpdJs, objUpd, hp]
      rw [hid, foldl_mapUpdJs_filter ps m]
    · rw [List.foldl_cons, List.filter_cons_of_pos (by simpa using hp),
        List.foldl_cons]
      have hstep : mapUpdJs m p =
          updAssoc p.1.title (fun v => jsStep v p) (objDefault p.1.title) m := by
        simp [mapUpdJs, objUpd, hp, jsStep]
      rw [hstep, foldl_mapUpdJs_filter ps _]

theorem chunkMapJs_eq (ps : List (CsvEntry × CsvEntry)) :
    ps.foldl mapUpdJs [] =
      (firstKeys ((ps.filter (fun p => p.1.title ≠ "__proto__")).map
        (fun p => p.1.title))).map
        (fun t => (t, (ps.filter (fun p => p.1.title = t)).foldl jsStep
          (objDefault t))) := by
  rw [foldl_mapUpdJs_filter]
  have h := groupFold_eq (fun p : CsvEntry × CsvEntry => p.1.title)
    (fun t => objDefault t) (fun v p => jsStep v p)
    (ps.filter (fun p => p.1.title ≠ "__proto__"))
  unfold groupFold at h
  rw [h]
  refine List.map_congr_left (fun t ht => ?_)
  have htne : t ≠ "__proto__" := by
    rw [mem_firstKeys] at ht
    obtain ⟨p, hp, rfl⟩ := List.mem_map.1 ht
    simpa using (List.mem_filter.1 hp).2
  have hff : (ps.filter (fun p => p.1.title ≠ "__proto__")).filter
        (fun p => p.1.title = t) =
      ps.filter (fun p => p.1.title = t) := by
    rw [List.filter_filter]
    refine List.filter_congr (fun p _ => ?_)
    by_cases h1 : p.1.title = t
    · simp [h1, htne]
    · simp [h1]
  rw [hff]

theorem chunkMapJs_fst (ps : List (CsvEntry × CsvEntry)) :
    (ps.foldl mapUpdJs []).map Prod.fst =
      firstKeys ((ps.filter (fun p => p.1.title ≠ "__proto__")).map
        (fun p => p.1.title)) := by
  rw [chunkMapJs_eq, List.map_map]
  have hcomp : (Prod.fst ∘ fun t : String => (t,
      (ps.filter (fun p => p.1.title = t)).foldl jsStep (objDefault t))) = id := rfl
  rw [hcomp, List.map_id]

theorem foldl_jsStep_num :
    ∀ (gs : List (CsvEntry × CsvEntry)) (a : ℚ),
      gs.foldl jsStep (.num a) = .num (a + (gs.map (fun p => gapSec p.1 p.2)).sum)
  | [], a => by simp
  | p :: gs, a => by
    rw [List.foldl_cons]
    have hstep : jsStep (.num a) p = .num (a + gapSec p.1 p.2) := by
      by_cases h : a = 0
      · subst h; simp [jsStep, jsTruthy, jsAdd]
      · simp [jsStep, jsTruthy, jsAdd, h]
    rw [hstep, foldl_jsStep_num gs (a + gapSec p.1 p.2), List.map_cons,
      List.sum_cons, add_assoc]

theorem data_ne_nil_of_ne_empty {s : String} (h : s ≠ "") : s.data ≠ [] := by
  intro hd
  apply h
  cases s with
  | mk d =>
    have : d = [] := hd
    rw [this]

theorem ne_empty_of_data_ne_nil {s : String} (h : s.data ≠ []) : s ≠ "" := by
  intro hc
  subst hc
  exact h rfl

theorem str_append_ne_empty (s t : String) (h : s ≠ "") : s ++ t ≠ "" := by
  apply ne_empty_of_data_ne_nil
  rw [String.data_append]
  intro hc
  exact data_ne_nil_of_ne_empty h (List.append_eq_nil.1 hc).1

theorem protoMemberStr_ne_empty (k : String) : protoMemberStr k ≠ "" := by
  unfold protoMemberStr
  apply str_append_ne_empty
  apply str_append_ne_empty
  apply str_append_ne_empty
  apply ne_empty_of_data_ne_nil
  decide

theorem foldl_jsStep_str :
    ∀ (gs : List (CsvEntry × CsvEntry)) (s : String), s ≠ "" →
      ∃ s', gs.foldl jsStep (.str s) = .str s' ∧ s' ≠ ""
  | [], s, h => ⟨s, rfl, h⟩
  | p :: gs, s, h => by
    rw [List.foldl_cons]
    have hstep : jsStep (.str s) p = .str (s ++ numToStr (gapSec p.1 p.2)) := by
      simp [jsStep, jsTruthy, jsAdd, h]
    rw [hstep]
    exact foldl_jsStep_str gs _ (str_append_ne_empty s _ h)

theorem foldl_jsAdd_of_num :
    ∀ (vs : List JsVal), (∀ v ∈ vs, ∃ q, v = JsVal.num q) → ∀ a : ℚ,
      vs.foldl jsAdd (.num a) = .num (a + (vs.map jsNumOf).sum)
  | [], _, a => by simp
  | v :: vs, h, a => by
    obtain ⟨q, rfl⟩ := h v (List.mem_cons_self _ _)
    rw [List.foldl_cons]
    have hstep : jsAdd (.num a) (.num q) = .num (a + q) := rfl
    rw [hstep, foldl_jsAdd_of_num vs (fun w hw => h w (List.mem_cons_of_mem _ hw))
      (a + q), List.map_cons, List.sum_cons]
    have : jsNumOf (.num q) = q := rfl
    rw [this, add_assoc]

/-! ### Per-block facts under full plain-object semantics -/

theorem mem_firstKeys_pairs {ps : List (CsvEntry × CsvEntry)} {t : String}
    (ht : t ∈ firstKeys ((ps.filter (fun p => p.1.title ≠ "__proto__")).map
      (fun p => p.1.title))) :
    (∃ p ∈ ps, p.1.title = t) ∧ t ≠ "__proto__" := by
  rw [mem_firstKeys] at ht
  obtain ⟨p, hp, rfl⟩ := List.mem_map.1 ht
  exact ⟨⟨p, (List.mem_filter.1 hp).1, rfl⟩, by simpa using (List.mem_filter.1 hp).2⟩

theorem blockOfChunkJs_activities_title (c : CsvEntry) (rest : List CsvEntry) :
    (blockOfChunkJs (c :: rest)).activities.map (fun a => a.title) =
      jsTitleOrder (firstKeys (((pairsOf (c :: rest)).filter
        (fun p => p.1.title ≠ "__proto__")).map (fun p => p.1.title))) := by
  rw [blockOfChunkJs_activities, List.map_map]
  have hcomp : ((fun a : JsActivity => a.title) ∘ fun p : String × JsVal =>
      (⟨p.1, p.2⟩ : JsActivity)) = Prod.fst := rfl
  rw [hcomp, jsEntries_map_fst, chunkMapJs_fst]

theorem blockOfChunkJs_titles_nodup (c : CsvEntry) (rest : List CsvEntry) :
    ((blockOfChunkJs (c :: rest)).activities.map (fun a => a.title)).Nodup := by
  rw [blockOfChunkJs_activities_title]
  unfold jsTitleOrder
  have hperm : List.Perm
      (List.insertionSort numStrLe
        ((firstKeys (((pairsOf (c :: rest)).filter
          (fun p => p.1.title ≠ "__proto__")).map (fun p => p.1.title))).filter
          isArrayIndexKey)
        ++ (firstKeys (((pairsOf (c :: rest)).filter
          (fun p => p.1.title ≠ "__proto__")).map (fun p => p.1.title))).filter
          (fun t => !isArrayIndexKey t))
      (firstKeys (((pairsOf (c :: rest)).filter
        (fun p => p.1.title ≠ "__proto__")).map (fun p => p.1.title))) :=
    ((List.perm_insertionSort numStrLe _).append_right _).trans
      (List.filter_append_perm _ _)
  exact hperm.nodup_iff.2 (nodup_firstKeys _)

theorem blockOfChunkJs_mem_entry (c : CsvEntry) (rest : List CsvEntry) :
    ∀ act ∈ (blockOfChunkJs (c :: rest)).activities,
      act.title ≠ "__proto__"
      ∧ (∃ p ∈ pairsOf (c :: rest), p.1.title = act.title)
      ∧ act.durationSec = ((pairsOf (c :: rest)).filter
          (fun p => p.1.title = act.title)).foldl jsStep (objDefault act.title) := by
  intro act hact
  rw [blockOfChunkJs_activities] at hact
  obtain ⟨pr, hpr, rfl⟩ := List.mem_map.1 hact
  have hpr' : pr ∈ (pairsOf (c :: rest)).foldl mapUpdJs [] :=
    (jsEntries_perm _).mem_iff.1 hpr
  rw [chunkMapJs_eq] at hpr'
  obtain ⟨t, ht, heq⟩ := List.mem_map.1 hpr'
  obtain ⟨hex, htne⟩ := mem_firstKeys_pairs ht
  rw [← heq]
  exact ⟨htne, hex, rfl⟩

theorem blockOfChunkJs_no_proto (c : CsvEntry) (rest : List CsvEntry) :
    ∀ act ∈ (blockOfChunkJs (c :: rest)).activities, act.title ≠ "__proto__" :=
  fun act hact => (blockOfChunkJs_mem_entry c rest act hact).1

theorem blockOfChunkJs_attribution (c : CsvEntry) (rest : List CsvEntry) :
    ∀ act ∈ (blockOfChunkJs (c :: rest)).activities, act.title ∉ protoKeys →
      act.durationSec = .num ((((pairsOf (c :: rest)).filter
        (fun p => p.1.title = act.title)).map (fun p => gapSec p.1 p.2)).sum) := by
  intro act hact hclean
  have hval := (blockOfChunkJs_mem_entry c rest act hact).2.2
  rw [hval]
  have hdflt : objDefault act.title = .num 0 := by
    unfold objDefault
    rw [if_neg hclean]
  rw [hdflt, foldl_jsStep_num, zero_add]

theorem blockOfChunkJs_proto_str (c : CsvEntry) (rest : List CsvEntry) :
    ∀ act ∈ (blockOfChunkJs (c :: rest)).activities, act.title ∈ protoKeys →
      ∃ s, act.durationSec = .str s := by
  intro act hact hp
  have hval := (blockOfChunkJs_mem_entry c rest act hact).2.2
  have hdflt : objDefault act.title = .str (protoMemberStr act.title) := by
    unfold objDefault
    rw [if_pos hp]
  obtain ⟨s', hs', -⟩ := foldl_jsStep_str
    ((pairsOf (c :: rest)).filter (fun p => p.1.title = act.title))
    (protoMemberStr act.title) (protoMemberStr_ne_empty _)
  exact ⟨s', by rw [hval, hdflt, hs']⟩

theorem blockOfChunkJs_clean_member (c : CsvEntry) (rest : List CsvEntry) :
    ∀ p ∈ pairsOf (c :: rest), p.1.title ≠ "__proto__" →
      ∃ act ∈ (blockOfChunkJs (c :: rest)).activities, act.title = p.1.title := by
  intro p hp hne
  have hkey : p.1.title ∈ ((pairsOf (c :: rest)).foldl mapUpdJs []).map Prod.fst := by
    rw [chunkMapJs_fst, mem_firstKeys]
    exact List.mem_map.2 ⟨p, List.mem_filter.2 ⟨hp, by simpa using hne⟩, rfl⟩
  obtain ⟨pr, hpr, hfst⟩ := List.mem_map.1 hkey
  have hpr' : pr ∈ jsEntries ((pairsOf (c :: rest)).foldl mapUpdJs []) :=
    (jsEntries_perm _).mem_iff.2 hpr
  refine ⟨⟨pr.1, pr.2⟩, ?_, hfst⟩
  rw [blockOfChunkJs_activities]
  exact List.mem_map.2 ⟨pr, hpr', rfl⟩

theorem blockOfChunkJs_total_reduce (c : CsvEntry) (rest : List CsvEntry) :
    (blockOfChunkJs (c :: rest)).totalDurationSec =
      ((blockOfChunkJs (c :: rest)).activities.map
        (fun a => a.durationSec)).foldl jsAdd (.num 0) := by
  rw [blockOfChunkJs_total, blockOfChunkJs_activities, List.map_map]
  rfl

theorem blockOfChunkJs_clean_total (c : CsvEntry) (rest : List CsvEntry)
    (hclean : ∀ p ∈ pairsOf (c :: rest), p.1.title ∉ protoKeys) :
    (blockOfChunkJs (c :: rest)).totalDurationSec =
      .num (((pairsOf (c :: rest)).map (fun p => gapSec p.1 p.2)).sum) := by
  have hproto : ("__proto__" : String) ∈ protoKeys := by decide
  have hfil : (pairsOf (c :: rest)).filter (fun p => p.1.title ≠ "__proto__") =
      pairsOf (c :: rest) := by
    rw [List.filter_eq_self]
    intro p hp
    have hne : p.1.title ≠ "__proto__" :=
      fun hc => (hclean p hp) (by rw [hc]; exact hproto)
    simpa using hne
  have hm := chunkMapJs_eq (pairsOf (c :: rest))
  rw [hfil] at hm
  have hkeyclean : ∀ t ∈ firstKeys ((pairsOf (c :: rest)).map
      (fun p => p.1.title)), t ∉ protoKeys := by
    intro t ht
    rw [mem_firstKeys] at ht
    obtain ⟨p, hp, rfl⟩ := List.mem_map.1 ht
    exact hclean p hp
  have hvals : ∀ v ∈ ((pairsOf (c :: rest)).foldl mapUpdJs []).map Prod.snd,
      ∃ q, v = JsVal.num q := by
    intro v hv
    rw [hm, List.map_map] at hv
    obtain ⟨t, ht, rfl⟩ := List.mem_map.1 hv
    have hdflt : objDefault t = .num 0 := by
      unfold objDefault
      rw [if_neg (hkeyclean t ht)]
    simp only [Function.comp_apply]
    rw [hdflt, foldl_jsStep_num]
    exact ⟨_, rfl⟩
  rw [blockOfChunkJs_total]
  rw [foldl_jsAdd_of_num (jsValues ((pairsOf (c :: rest)).foldl mapUpdJs []))
    (fun v hv => hvals v (((jsEntries_perm _).map Prod.snd).mem_iff.1 hv)) 0]
  have hsum : ((jsValues ((pairsOf (c :: rest)).foldl mapUpdJs [])).map jsNumOf).sum =
      ((((pairsOf (c :: rest)).foldl mapUpdJs []).map Prod.snd).map jsNumOf).sum :=
    (((jsEntries_perm _).map Prod.snd).map jsNumOf).sum_eq
  rw [hsum, hm, List.map_map, List.map_map]
  have hpt : ((firstKeys ((pairsOf (c :: rest)).map (fun p => p.1.title))).map
        ((jsNumOf ∘ Prod.snd) ∘ fun t => (t,
          ((pairsOf (c :: rest)).filter (fun p => p.1.title = t)).foldl jsStep
            (objDefault t)))) =
      (firstKeys ((pairsOf (c :: rest)).map (fun p => p.1.title))).map
        (fun t => (((pairsOf (c :: rest)).filter (fun p => p.1.title = t)).map
          (fun p => gapSec p.1 p.2)).sum) := by
    refine List.map_congr_left (fun t ht => ?_)
    have hdflt : objDefault t = .num 0 := by
      unfold objDefault
      rw [if_neg (hkeyclean t ht)]
    simp only [Function.comp_apply]
    rw [hdflt, foldl_jsStep_num, zero_add]
    rfl
  rw [hpt, sum_over_firstKeys (fun p : CsvEntry × CsvEntry => p.1.title)
    (fun p => gapSec p.1 p.2), zero_add]

/-! ### Concrete data used to instantiate the theorems -/

/-- Three sorted records: two gaps of 240 s and 360 s. -/
def demoEntries : List CsvEntry :=
  [⟨0, "App", "Write", none, none⟩, ⟨240000, "App", "Write", none, none⟩,
   ⟨600000, "App", "Read", none, none⟩]

/-- Two sorted records one second apart whose first title is the string
__proto__, colliding with the inherited accessor of the plain-object
accumulator. -/
def protoEntries : List CsvEntry :=
  [⟨0, "app", "__proto__", none, none⟩, ⟨1000, "app", "x", none, none⟩]

theorem protoEntries_chunks :
    chunkByGap 10 protoEntries = [protoEntries] := by
  have h2 : chunkByGap 10 [(⟨1000, "app", "x", none, none⟩ : CsvEntry)] =
      [[⟨1000, "app", "x", none, none⟩]] := by rw [chunkByGap]
  have h1 := chunkByGap_cons_cons 10 ⟨0, "app", "__proto__", none, none⟩
    ⟨1000, "app", "x", none, none⟩ [] _ _ h2
  rw [if_pos (by norm_num [gapSec])] at h1
  exact h1

theorem protoBlock_eval :
    blockOfChunkJs protoEntries =
      { «from» := 0, «to» := 1000, totalDurationSec := .num 0,
        activities := [] } := rfl

/-! ### The claims -/

/-- C1 counterexample: on the sorted two-record input whose first title is
the string __proto__ and threshold 10 s, the 1 s gap is at most the
threshold and the pair is merged (the block's to boundary advances to the
second timestamp), yet the gap is not attributed to the earlier record's
title: the assignment activityMap.__proto__ = ... invokes the inherited
setter and creates no own property, so the emitted block has no
activities at all. -/
theorem gap_threshold_attribution_counterexample :
    gapSec ⟨0, "app", "__proto__", none, none⟩ ⟨1000, "app", "x", none, none⟩ ≤ 10
    ∧ aggregateToBlocksJs protoEntries 10 =
        [{ «from» := 0, «to» := 1000, totalDurationSec := .num 0,
           activities := [] }] := by
  constructor
  · norm_num [gapSec]
  · rw [aggregateToBlocksJs_eq_chunks, protoEntries_chunks, List.map_cons,
      List.map_nil, protoBlock_eval]

/-- C1 (corrected): on a timestamp-sorted record sequence, the aggregator
merges a consecutive pair into the same block exactly when the gap in
seconds is at most the idle threshold.  Formally: the output is one block
per maximal run of consecutive records whose gaps are all at most the
threshold (so a gap exactly equal to the threshold stays inside the open
block), the runs partition the input in order, every run boundary carries
a gap strictly greater than the threshold (the open block is closed and
emitted and a new block opens at the later record's timestamp), and each
block spans from its run's first to its run's last timestamp (the to
boundary advances to the merged record).  The attribution clause holds in
the corrected form: no activity is ever titled __proto__ (such gaps are
discarded by the inherited setter), and every activity whose title does
not collide with an Object.prototype member has as duration the number
equal to the sum of the absorbed gaps of the pairs whose earlier record
carries that title. -/
theorem aggregate_gap_threshold_corrected (entries : List CsvEntry) (thr : ℚ)
    (_hs : sortedByTs entries = true) :
    aggregateToBlocksJs entries thr = (chunkByGap thr entries).map blockOfChunkJs
    ∧ (chunkByGap thr entries).flatten = entries
    ∧ (∀ ch ∈ chunkByGap thr entries, ch ≠ []
        ∧ ch.Chain' (fun a b => gapSec a b ≤ thr)
        ∧ (blockOfChunkJs ch).«from» = (ch.headD default).timestamp
        ∧ (blockOfChunkJs ch).«to» = (ch.getLastD default).timestamp)
    ∧ (chunkByGap thr entries).Chain' (fun ch₁ ch₂ => ∀ a b,
        ch₁.getLast? = some a → ch₂.head? = some b → thr < gapSec a b)
    ∧ (∀ ch ∈ chunkByGap thr entries, ∀ act ∈ (blockOfChunkJs ch).activities,
        act.title ≠ "__proto__"
        ∧ (act.title ∉ protoKeys →
            act.durationSec = .num ((((pairsOf ch).filter
              (fun p => p.1.title = act.title)).map
                (fun p => gapSec p.1 p.2)).sum))) := by
  refine ⟨aggregateToBlocksJs_eq_chunks entries thr, chunkByGap_flatten thr entries,
    ?_, chunkByGap_boundary thr entries, ?_⟩
  · intro ch hch
    match ch, chunkByGap_ne_nil thr entries ch hch with
    | c :: rest, _ =>
      refine ⟨by simp, chunkByGap_chain thr entries _ hch, ?_, ?_⟩
      · rw [blockOfChunkJs_from]
        rfl
      · rw [blockOfChunkJs_to, List.getLastD_cons]
  · intro ch hch act hact
    match ch, chunkByGap_ne_nil thr entries ch hch with
    | c :: rest, _ =>
      exact ⟨blockOfChunkJs_no_proto c rest act hact,
        fun hcl => blockOfChunkJs_attribution c rest act hact hcl⟩

theorem aggregate_gap_threshold_corrected_witness :
    (chunkByGap (300 : ℚ) demoEntries).flatten = demoEntries :=
  (aggregate_gap_threshold_corrected demoEntries 300 (by decide)).2.1

/-- C2 counterexample: on the sorted two-record input whose first title is
the string __proto__ and threshold 10 s, the single emitted block absorbs
one inter-record gap of 1 s, but its totalDurationSec is the number 0 and
its activities sequence is empty: the total does not equal the sum of the
absorbed gaps. -/
theorem block_invariants_total_counterexample :
    aggregateToBlocksJs protoEntries 10 =
        [{ «from» := 0, «to» := 1000, totalDurationSec := .num 0,
           activities := [] }]
    ∧ ((pairsOf protoEntries).map (fun p => gapSec p.1 p.2)).sum = 1
    ∧ JsVal.num 0 ≠ JsVal.num 1 := by
  refine ⟨?_, ?_, by decide⟩
  · rw [aggregateToBlocksJs_eq_chunks, protoEntries_chunks, List.map_cons,
      List.map_nil, protoBlock_eval]
  · have hp : (pairsOf protoEntries).map (fun p => gapSec p.1 p.2) =
        [gapSec ⟨0, "app", "__proto__", none, none⟩
          ⟨1000, "app", "x", none, none⟩] := rfl
    rw [hp]
    norm_num [gapSec]

/-- C2 (corrected): every block emitted on a timestamp-sorted input
satisfies from ≤ to; its totalDurationSec is the left reduce of the +
operator from the number 0 over its activities' durations (the faithful
form of "total equals the sum of the activities"); the activities
sequence has at most one entry per distinct title; and the total equals
the number that is the sum of the inter-record gaps absorbed into the
block's run exactly when no absorbed pair's title collides with an
Object.prototype member (otherwise gaps titled __proto__ are discarded
and prototype-member titles make the accumulator concatenate strings). -/
theorem aggregate_block_invariants_corrected (entries : List CsvEntry) (thr : ℚ)
    (hs : sortedByTs entries = true) :
    ∀ b ∈ aggregateToBlocksJs entries thr,
      b.«from» ≤ b.«to»
      ∧ b.totalDurationSec =
          (b.activities.map (fun a => a.durationSec)).foldl jsAdd (.num 0)
      ∧ (b.activities.map (fun a => a.title)).Nodup
      ∧ (∃ ch ∈ chunkByGap thr entries, b = blockOfChunkJs ch
          ∧ ((∀ p ∈ pairsOf ch, p.1.title ∉ protoKeys) →
              b.totalDurationSec =
                .num (((pairsOf ch).map (fun p => gapSec p.1 p.2)).sum))) := by
  intro b hb
  obtain ⟨c, rest, hch, rfl⟩ := mem_aggregateJs_chunk entries thr b hb
  refine ⟨?_, blockOfChunkJs_total_reduce c rest,
    blockOfChunkJs_titles_nodup c rest,
    ⟨c :: rest, hch, rfl, fun hcl => blockOfChunkJs_clean_total c rest hcl⟩⟩
  rw [blockOfChunkJs_from, blockOfChunkJs_to]
  exact sortedByTs_head_last rest c (sortedByTs_chunks thr entries hs _ hch)

theorem aggregate_block_invariants_corrected_witness :
    ((aggregateToBlocksJs demoEntries 300).headD default).«from» ≤
      ((aggregateToBlocksJs demoEntries 300).headD default).«to» :=
  (aggregate_block_invariants_corrected demoEntries 300 (by decide) _
    (headD_mem_of_ne_nil _ (aggregateJs_ne_nil demoEntries 300 (by decide)))).1

/-- C7: on a timestamp-sorted input, a strictly negative idle threshold
produces one block per record, each spanning exactly its record's
timestamp with zero total duration and no activities, because every
non-negative gap strictly exceeds the threshold. -/
theorem aggregate_negative_threshold (entries : List CsvEntry) (thr : ℚ)
    (hs : sortedByTs entries = true) (hneg : thr < 0) :
    aggregateToBlocks entries thr =
      entries.map (fun e =>
        { «from» := e.timestamp, «to» := e.timestamp, totalDurationSec := 0,
          activities := [] }) := by
  rw [aggregateToBlocks_eq_chunks,
    chunkByGap_all_split thr entries (fun p hp hle =>
      absurd (lt_of_le_of_lt hle hneg)
        (not_lt.2 (gapSec_nonneg (sortedByTs_pairs entries hs p hp)))),
    List.map_map]
  rfl

theorem aggregate_negative_threshold_witness :
    aggregateToBlocks demoEntries (-1) =
      demoEntries.map (fun e =>
        { «from» := e.timestamp, «to» := e.timestamp, totalDurationSec := 0,
          activities := [] }) :=
  aggregate_negative_threshold demoEntries (-1) (by decide) (by norm_num)

/-- C10: on a timestamp-sorted input with a non-negative threshold, the
emitted blocks are chronologically ordered and pairwise disjoint: each
consecutive pair of blocks is separated by a gap in seconds strictly
greater than the threshold, and every earlier block ends strictly before
every later block starts, so the blocks are strictly ascending by from
and the intervals do not overlap. -/
theorem aggregate_blocks_disjoint (entries : List CsvEntry) (thr : ℚ)
    (hs : sortedByTs entries = true) (ht : 0 ≤ thr) :
    (aggregateToBlocks entries thr).Chain' (fun b₁ b₂ =>
      thr < ((b₂.«from» - b₁.«to» : Int) : ℚ) / 1000)
    ∧ (aggregateToBlocks entries thr).Pairwise (fun b₁ b₂ =>
        b₁.«from» < b₂.«from» ∧ b₁.«to» < b₂.«from») := by
  have hchain : (aggregateToBlocks entries thr).Chain' (fun b₁ b₂ =>
      thr < ((b₂.«from» - b₁.«to» : Int) : ℚ) / 1000) := by
    rw [aggregateToBlocks_eq_chunks]
    rw [List.chain'_map]
    refine chain'_imp_of_mem _ ?_ (chunkByGap_boundary thr entries)
    intro ch₁ hch₁ ch₂ hch₂ hlink
    match ch₁, chunkByGap_ne_nil thr entries ch₁ hch₁,
        ch₂, chunkByGap_ne_nil thr entries ch₂ hch₂ with
    | c₁ :: r₁, _, c₂ :: r₂, _ =>
      have hg := hlink (r₁.getLastD c₁) c₂ (getLast?_cons_eq r₁ c₁) rfl
      rw [blockOfChunk_from, blockOfChunk_to]
      exact hg
  refine ⟨hchain, ?_⟩
  have hstrict : (aggregateToBlocks entries thr).Chain' (fun b₁ b₂ =>
      b₁.«to» < b₂.«from») := by
    refine hchain.imp ?_
    intro b₁ b₂ h
    have hx : (0 : ℚ) < ((b₂.«from» - b₁.«to» : Int) : ℚ) / 1000 :=
      lt_of_le_of_lt ht h
    rw [div_pos_iff] at hx
    rcases hx with ⟨hx, -⟩ | ⟨-, hx⟩
    · have : (0 : Int) < b₂.«from» - b₁.«to» := by exact_mod_cast hx
      omega
    · norm_num at hx
  exact chain'_lt_pairwise _ (aggregate_from_le_to entries thr hs) hstrict

theorem aggregate_blocks_disjoint_witness :
    (aggregateToBlocks demoEntries 300).Chain' (fun b₁ b₂ =>
      (300 : ℚ) < ((b₂.«from» - b₁.«to» : Int) : ℚ) / 1000) :=
  (aggregate_blocks_disjoint demoEntries 300 (by decide) (by norm_num)).1

/-- Blocks on two calendar days (the second crosses into the next day),
used to instantiate the grouper theorems. -/
def demoBlocks : List AggregatedBlock :=
  [⟨1000, 2000, 5, []⟩, ⟨86401000, 86402000, 7, []⟩, ⟨3000, 4000, 2, []⟩]

/-- C3: the grouper assigns each block to the local-midnight day key of
its from instant; a block is never split (it appears, whole, exactly in
the DayData of its from day, regardless of where its to falls); within
each DayData the blocks keep input relative order (each day's blocks are
the in-order filter of the input by that day key, and the days appear in
order of first occurrence); and each DayData's totalDurationSec is the
sum of its blocks' totals. -/
theorem group_day_keying_spec (tz : Int) (blocks : List AggregatedBlock) :
    groupBlocksByDay tz blocks =
      (firstKeys (blocks.map (fun b => dayMidnight tz b.«from»))).map
        (fun k => ⟨k, blocks.filter (fun b => dayMidnight tz b.«from» = k),
          ((blocks.filter (fun b => dayMidnight tz b.«from» = k)).map
            (fun b => b.totalDurationSec)).sum⟩)
    ∧ ∀ dd ∈ groupBlocksByDay tz blocks,
        dd.blocks = blocks.filter (fun b => dayMidnight tz b.«from» = dd.date)
        ∧ dd.totalDurationSec = (dd.blocks.map (fun b => b.totalDurationSec)).sum
        ∧ ∀ b ∈ dd.blocks, dayMidnight tz b.«from» = dd.date := by
  refine ⟨groupBlocksByDay_eq tz blocks, ?_⟩
  intro dd hdd
  rw [groupBlocksByDay_eq] at hdd
  obtain ⟨k, _hk, rfl⟩ := List.mem_map.1 hdd
  refine ⟨rfl, rfl, ?_⟩
  intro b hb
  simpa using (List.mem_filter.1 hb).2

theorem group_day_keying_spec_witness :
    groupBlocksByDay 0 demoBlocks =
      (firstKeys (demoBlocks.map (fun b => dayMidnight 0 b.«from»))).map
        (fun k => ⟨k, demoBlocks.filter (fun b => dayMidnight 0 b.«from» = k),
          ((demoBlocks.filter (fun b => dayMidnight 0 b.«from» = k)).map
            (fun b => b.totalDurationSec)).sum⟩) :=
  (group_day_keying_spec 0 demoBlocks).1

/-- C4: each day is assigned to the Monday starting its week: the
weekStart of the week containing a day equals getMonday of its date, the
computed Monday has local weekday Monday, a Sunday day key maps to the
Monday six days prior, a Monday day key starts its own week, and the
returned weeks are sorted ascending by weekStart. -/
theorem group_week_keying_spec (tz : Int) (blocks : List AggregatedBlock) :
    (groupBlocksByWeek tz blocks).Pairwise
      (fun w₁ w₂ => w₁.weekStart ≤ w₂.weekStart)
    ∧ (∀ w ∈ groupBlocksByWeek tz blocks, ∀ d ∈ w.days,
        w.weekStart = getMonday tz d.date)
    ∧ (∀ t : Int, weekdayOf tz (getMonday tz t) = 1)
    ∧ (∀ t : Int, weekdayOf tz t = 0 →
        getMonday tz t = dayMidnight tz t - 6 * 86400000)
    ∧ (∀ t : Int, weekdayOf tz t = 1 → getMonday tz t = dayMidnight tz t) := by
  refine ⟨?_, ?_, weekdayOf_getMonday tz, getMonday_sunday tz, getMonday_monday tz⟩
  · unfold groupBlocksByWeek
    exact List.Pairwise.imp (fun h => h) (List.sorted_insertionSort weekLe _)
  · intro w hw d hd
    rw [groupBlocksByWeek_eq, List.mem_insertionSort] at hw
    obtain ⟨k, _hk, rfl⟩ := List.mem_map.1 hw
    exact (by simpa using (List.mem_filter.1 hd).2 : getMonday tz d.date = k).symm

theorem group_week_keying_spec_witness :
    (groupBlocksByWeek 0 demoBlocks).Pairwise
      (fun w₁ w₂ => w₁.weekStart ≤ w₂.weekStart) :=
  (group_week_keying_spec 0 demoBlocks).1

/-- C5: for every input text and any host date and number parsers, the
parser output is sorted non-decreasing by timestamp, and the sort is
stable: filtering the output at any fixed timestamp yields exactly the
valid records with that timestamp in input line order. -/
theorem parse_sorted_stable (pd : String → Option Int) (pn : String → Option ℚ)
    (csvText : String) :
    (parseCsv pd pn csvText).Pairwise (fun a b => a.timestamp ≤ b.timestamp)
    ∧ ∀ t : Int, (parseCsv pd pn csvText).filter (fun e => e.timestamp = t) =
        (parsedEntries pd pn csvText).filter (fun e => e.timestamp = t) := by
  constructor
  · unfold parseCsv
    exact List.Pairwise.imp (fun h => h) (List.sorted_insertionSort tsLe _)
  · intro t
    unfold parseCsv
    refine filter_insertionSort tsLe (fun e => decide (e.timestamp = t))
      (fun x y hx hy => ?_) _
    have hx' : x.timestamp = t := of_decide_eq_true hx
    have hy' : y.timestamp = t := of_decide_eq_true hy
    unfold tsLe
    rw [hx', hy']

/-- A concrete host date parser for the instantiations: digit strings
parsed as integers, everything else rejected. -/
def pdW (s : String) : Option Int :=
  if s.data ≠ [] ∧ s.data.all (fun c => decide ('0' ≤ c) && decide (c ≤ '9')) then
    some (natOfDigits s.data)
  else none

/-- A concrete host number parser for the instantiations. -/
def pnW (_s : String) : Option ℚ := none

theorem parse_sorted_stable_witness :
    (parseCsv pdW pnW "300,App,Write\nbad\n100,App,Read").Pairwise
      (fun a b => a.timestamp ≤ b.timestamp) :=
  (parse_sorted_stable pdW pnW "300,App,Write\nbad\n100,App,Read").1

/-- C6: a single-record input yields exactly one block whose from and to
both equal the record's timestamp, with zero total duration and an empty
activities sequence; and more generally the open block is always flushed
after the scan: every non-empty input yields a non-empty block sequence
whose last block's to boundary is the final record's timestamp. -/
theorem aggregate_single_and_final_flush (thr : ℚ) :
    (∀ e : CsvEntry, aggregateToBlocks [e] thr =
      [{ «from» := e.timestamp, «to» := e.timestamp, totalDurationSec := 0,
         activities := [] }])
    ∧ ∀ entries : List CsvEntry, entries ≠ [] →
        aggregateToBlocks entries thr ≠ []
        ∧ ∀ b ∈ (aggregateToBlocks entries thr).getLast?,
            ∀ e ∈ entries.getLast?, b.«to» = e.timestamp := by
  constructor
  · intro e
    rfl
  · intro entries hne
    refine ⟨aggregate_ne_nil entries thr hne, ?_⟩
    match entries, hne with
    | c :: rest, _ =>
      obtain ⟨ch, chs, hdec⟩ := chunkByGap_cons_decomp thr rest c
      intro b hb e he
      rw [aggregateToBlocks_eq_chunks, List.getLast?_map, hdec,
        getLast?_cons_eq] at hb
      have hb' : blockOfChunk (chs.getLastD (c :: ch)) = b := by simpa using hb
      have hmem : chs.getLastD (c :: ch) ∈ chunkByGap thr (c :: rest) := by
        rw [hdec]
        exact getLastD_mem chs (c :: ch)
      have hne2 := chunkByGap_ne_nil thr (c :: rest) _ hmem
      have hlast : (c :: rest).getLast? = (chs.getLastD (c :: ch)).getLast? := by
        conv_lhs => rw [← chunkByGap_flatten thr (c :: rest)]
        rw [getLast?_flatten _ (chunkByGap_ne_nil thr (c :: rest)), hdec,
          getLast?_cons_eq]
        rfl
      obtain ⟨c', r', hx⟩ := List.exists_cons_of_ne_nil hne2
      rw [hx] at hb' hlast
      rw [hlast, getLast?_cons_eq] at he
      have he' : r'.getLastD c' = e := by simpa using he
      rw [← hb', blockOfChunk_to, ← he']

theorem aggregate_single_and_final_flush_witness :
    aggregateToBlocks [(⟨5, "a", "t", none, none⟩ : CsvEntry)] 300 =
      [{ «from» := 5, «to» := 5, totalDurationSec := 0, activities := [] }] :=
  (aggregate_single_and_final_flush 300).1 ⟨5, "a", "t", none, none⟩

/-- C8: the parser is a total function that never signals an error: the
empty input yields the empty sequence, an input none of whose lines is
valid yields the empty sequence, a line with fewer than three
comma-separated fields is dropped, a line whose first field the host
date parser rejects is dropped, and dropping is local: every valid line
contributes its record to the output no matter what the other lines
contain. -/
theorem parse_total_and_drops (pd : String → Option Int) (pn : String → Option ℚ) :
    parseCsv pd pn "" = []
    ∧ (∀ csvText : String,
        (∀ line ∈ csvLines csvText, parseLine pd pn line = none) →
        parseCsv pd pn csvText = [])
    ∧ (∀ line : List Char, (splitOnChar ',' line).length < 3 →
        parseLine pd pn line = none)
    ∧ (∀ line : List Char,
        pd (trimChars ((splitOnChar ',' line).getD 0 [])).asString = none →
        parseLine pd pn line = none)
    ∧ (∀ csvText : String, ∀ line ∈ csvLines csvText, ∀ e : CsvEntry,
        parseLine pd pn line = some e → e ∈ parseCsv pd pn csvText) := by
  refine ⟨rfl, ?_, ?_, ?_, ?_⟩
  · intro csvText h
    have hnil : (csvLines csvText).filterMap (parseLine pd pn) = [] :=
      List.filterMap_eq_nil_iff.2 h
    unfold parseCsv parsedEntries
    rw [hnil]
    rfl
  · intro line h
    simp only [parseLine]
    rw [if_pos h]
  · intro line h
    simp only [parseLine]
    by_cases h3 : (splitOnChar ',' line).length < 3
    · rw [if_pos h3]
    · rw [if_neg h3, h]
  · intro csvText line hline e he
    unfold parseCsv
    rw [List.mem_insertionSort]
    exact List.mem_filterMap.2 ⟨line, hline, he⟩

theorem parse_total_and_drops_witness :
    parseCsv pdW pnW "" = [] ∧ parseLine pdW pnW ['a', 'b'] = none :=
  ⟨(parse_total_and_drops pdW pnW).1,
    (parse_total_and_drops pdW pnW).2.2.1 ['a', 'b'] (by decide)⟩

/-- Records whose titles include the canonical array-index string 0
inserted after the title b, exposing the numeric-key reordering of
Object.entries on the plain-object accumulator. -/
def numericTitleEntries : List CsvEntry :=
  [⟨0, "app", "b", none, none⟩, ⟨1000, "app", "0", none, none⟩,
   ⟨2000, "app", "x", none, none⟩]

theorem numericTitle_chunks :
    chunkByGap 10 numericTitleEntries = [numericTitleEntries] := by
  have h3 : chunkByGap 10 [(⟨2000, "app", "x", none, none⟩ : CsvEntry)] =
      [[⟨2000, "app", "x", none, none⟩]] := by rw [chunkByGap]
  have h2 := chunkByGap_cons_cons 10 ⟨1000, "app", "0", none, none⟩
    ⟨2000, "app", "x", none, none⟩ [] _ _ h3
  rw [if_pos (by norm_num [gapSec])] at h2
  have h1 := chunkByGap_cons_cons 10 ⟨0, "app", "b", none, none⟩
    ⟨1000, "app", "0", none, none⟩ [⟨2000, "app", "x", none, none⟩] _ _ h2
  rw [if_pos (by norm_num [gapSec])] at h1
  exact h1

theorem numericTitle_firstKeys :
    firstKeys ((pairsOf numericTitleEntries).map (fun p => p.1.title)) =
      ["b", "0"] := by
  have h0 : (pairsOf numericTitleEntries).map (fun p => p.1.title) = ["b", "0"] := by
    decide
  rw [h0, firstKeys_cons]
  have h1 : (["0"] : List String).filter (fun x => x ≠ "b") = ["0"] := by decide
  rw [h1, firstKeys_cons]
  have h2 : ([] : List String).filter (fun x => x ≠ "0") = [] := by decide
  rw [h2, firstKeys_nil]

/-- C9 counterexample: on the sorted input with titles b, 0, x and
threshold 10 s, the single emitted block lists its activities with title
0 before title b, although the first occurrence (insertion) order of the
titles within the block is b before 0: the flattened activities sequence
is not in insertion order when a title is a canonical array-index
string. -/
theorem activities_order_counterexample :
    (aggregateToBlocksJs numericTitleEntries 10).map
        (fun b => b.activities.map (fun a => a.title)) = [["0", "b"]]
    ∧ firstKeys ((pairsOf numericTitleEntries).map (fun p => p.1.title)) =
        ["b", "0"]
    ∧ (["0", "b"] : List String) ≠ ["b", "0"] := by
  refine ⟨?_, numericTitle_firstKeys, by decide⟩
  rw [aggregateToBlocksJs_eq_chunks, numericTitle_chunks]
  simp only [List.map_cons, List.map_nil]
  have hfil : (pairsOf numericTitleEntries).filter
      (fun p => p.1.title ≠ "__proto__") = pairsOf numericTitleEntries := rfl
  have hact : (blockOfChunkJs numericTitleEntries).activities.map
        (fun a => a.title) =
      jsTitleOrder (firstKeys (((pairsOf numericTitleEntries).filter
        (fun p => p.1.title ≠ "__proto__")).map (fun p => p.1.title))) :=
    blockOfChunkJs_activities_title ⟨0, "app", "b", none, none⟩
      [⟨1000, "app", "0", none, none⟩, ⟨2000, "app", "x", none, none⟩]
  rw [hact, hfil, numericTitle_firstKeys]
  decide

/-- C9 (corrected): for every block, the flattened activities sequence
lists titles in the ECMAScript own-property order of the plain-object
accumulator, from which the title __proto__ is always absent (its
assignments hit the inherited setter and never create an own property):
among the block's pair titles other than __proto__, those that are
canonical array-index strings (the decimal representation of an integer
below 2^32 - 1) come first in ascending numeric order, and all remaining
titles follow in insertion order, i.e. ordered by the first occurrence of
each title within the block. -/
theorem activities_title_order_corrected (entries : List CsvEntry) (thr : ℚ) :
    ∀ b ∈ aggregateToBlocksJs entries thr, ∃ ch ∈ chunkByGap thr entries,
      b = blockOfChunkJs ch
      ∧ b.activities.map (fun a => a.title) =
          jsTitleOrder (firstKeys (((pairsOf ch).filter
            (fun p => p.1.title ≠ "__proto__")).map (fun p => p.1.title)))
      ∧ ∀ act ∈ b.activities, act.title ≠ "__proto__" := by
  intro b hb
  obtain ⟨c, rest, hch, rfl⟩ := mem_aggregateJs_chunk entries thr b hb
  exact ⟨c :: rest, hch, rfl, blockOfChunkJs_activities_title c rest,
    blockOfChunkJs_no_proto c rest⟩

theorem activities_title_order_corrected_witness :
    ∃ ch ∈ chunkByGap 10 numericTitleEntries,
      (aggregateToBlocksJs numericTitleEntries 10).headD default = blockOfChunkJs ch
      ∧ ((aggregateToBlocksJs numericTitleEntries 10).headD default).activities.map
          (fun a => a.title) =
        jsTitleOrder (firstKeys (((pairsOf ch).filter
          (fun p => p.1.title ≠ "__proto__")).map (fun p => p.1.title)))
      ∧ ∀ act ∈ ((aggregateToBlocksJs numericTitleEntries 10).headD
          default).activities, act.title ≠ "__proto__" :=
  activities_title_order_corrected numericTitleEntries 10 _
    (headD_mem_of_ne_nil _ (aggregateJs_ne_nil numericTitleEntries 10 (by decide)))

end WorkLog
